import Mathlib

/-!
# Verification of the references-view result model

A shallow embedding, in Lean 4, of the core data structures and algorithms of the
`vscode-references-view` extension: the reference result model (`src/models.ts`,
`ReferencesModel` / `FileItem` / `ReferenceItem`), the folder-grouping model
(`src/model.ts`, `ModelImpl` / `FolderItemImpl` / `FileItemImpl` / `ReferenceItemImpl`),
the search history (`src/history.ts`, `History`), and the call hierarchy model
(`src/calls/model.ts`, `CallsModel` / `CallItem`).

Conventions used throughout:
* `vscode.Position` is a pair of natural numbers ordered lexicographically,
  `vscode.Range` a pair of positions, `vscode.Uri` a record carrying the
  fragment-free rendering (`base`), the `path` component, and the `fragment`;
  `Uri.toString` appends `#fragment` when the fragment is non-empty, which is
  what `vscode.Uri.toString()` produces for the values relevant here.
* JavaScript `Array.prototype.sort` with a comparator that is a total preorder
  (as `_compareLocations` is: it compares the lexicographic key
  (uri string, start line, start character)) is modelled by insertion sort on
  the induced relation; any two stable sorts agree on such comparators, and the
  theorems below depend only on sortedness and the permutation property.
* JavaScript object identity: sibling lookups in the source use
  `Array.indexOf(node)` on arrays of *distinct objects*, which returns the
  node's actual index.  Tree nodes are therefore addressed by paths (lists of
  indices), and `indexOf` of an attached node is its path index.
* Mutation is modelled by state passing; methods that can `throw` return
  `Except String`, methods that can return `undefined` return `Option`.
-/

namespace RefsView

/-- `vscode.Position`: zero-based line and character. -/
structure Pos where
  line : Nat
  character : Nat
deriving DecidableEq, Repr

/-- `vscode.Position.isBefore`: strict lexicographic order on (line, character). -/
def Pos.isBefore (a b : Pos) : Bool :=
  a.line < b.line || (a.line == b.line && a.character < b.character)

/-- `vscode.Position.isAfter`. -/
def Pos.isAfter (a b : Pos) : Bool :=
  b.isBefore a

/-- `vscode.Position.isBeforeOrEqual`. -/
def Pos.isBeforeOrEqual (a b : Pos) : Bool :=
  a.isBefore b || a == b

/-- `vscode.Range`: a start and an end position. -/
structure Range where
  start : Pos
  stop : Pos
deriving DecidableEq, Repr

/-- `vscode.Range.contains(position)`: start ≤ position ≤ end. -/
def Range.containsPos (r : Range) (p : Pos) : Bool :=
  r.start.isBeforeOrEqual p && p.isBeforeOrEqual r.stop

/-- `vscode.Uri`, reduced to the projections the model code reads: `base` is the
rendering of the uri without its fragment, `path` is the `path` component, and
`fragment` the fragment.  `file:///a/b.ts#frag` has `base = "file:///a/b.ts"`,
`path = "/a/b.ts"`, `fragment = "frag"`. -/
structure Uri where
  base : String
  path : String
  fragment : String
deriving DecidableEq, Repr

/-- `vscode.Uri.toString()`: the fragment-free rendering followed by
`#fragment` when a fragment is present. -/
def Uri.toStr (u : Uri) : String :=
  if u.fragment = "" then u.base else u.base ++ "#" ++ u.fragment

/-- `uri.with({ fragment: '' })`. -/
def Uri.stripFragment (u : Uri) : Uri :=
  { u with fragment := "" }

/-- `vscode.Location`: a uri and a range. -/
structure Location where
  uri : Uri
  range : Range
deriving DecidableEq, Repr

/-- JavaScript `<` on strings: lexicographic comparison of the code-unit
sequences, modelled as the lexicographic order on the character lists (they
agree on all strings appearing in this development).  Written on `toList` so
that it evaluates inside the kernel. -/
def jsStrLt (a b : String) : Bool :=
  a.toList < b.toList

theorem jsStrLt_iff (a b : String) : jsStrLt a b = true ↔ a < b := by
  simp [jsStrLt, decide_eq_true_eq, String.lt_iff_toList_lt]

/-- `ReferencesModel._compareLocations` (src/models.ts) and the identical
`ModelImpl._compareLocations` (src/model.ts): order by full uri string, then by
start position. -/
def compareLocations (a b : Location) : Int :=
  if jsStrLt a.uri.toStr b.uri.toStr then -1
  else if jsStrLt b.uri.toStr a.uri.toStr then 1
  else if a.range.start.isBefore b.range.start then -1
  else if a.range.start.isAfter b.range.start then 1
  else 0

/-- The non-strict relation induced by the comparator (`compare ≤ 0`), used to
state sortedness of the JS `Array.prototype.sort` output. -/
def locLE (a b : Location) : Prop :=
  compareLocations a b ≤ 0

instance : DecidableRel locLE := fun a b => by
  unfold locLE; infer_instance

/-- `locations.sort(_compareLocations)`: a stable sort by the comparator,
modelled as insertion sort on the induced relation. -/
def sortLocations (locs : List Location) : List Location :=
  List.insertionSort locLE locs

theorem Pos.isBefore_iff (a b : Pos) :
    a.isBefore b = true ↔ a.line < b.line ∨ (a.line = b.line ∧ a.character < b.character) := by
  simp [Pos.isBefore, Bool.or_eq_true, Bool.and_eq_true, decide_eq_true_eq, beq_iff_eq]

theorem Pos.isBeforeOrEqual_iff (a b : Pos) :
    a.isBeforeOrEqual b = true ↔
      a.line < b.line ∨ (a.line = b.line ∧ a.character ≤ b.character) := by
  rcases a with ⟨l1, c1⟩; rcases b with ⟨l2, c2⟩
  simp only [Pos.isBeforeOrEqual, Bool.or_eq_true, Pos.isBefore_iff, beq_iff_eq, Pos.mk.injEq]
  omega

/-- The comparator realises the lexicographic key (uri string, start line,
start character): `compare a b ≤ 0` iff the key of `a` is at most the key of `b`. -/
theorem locLE_iff (a b : Location) : locLE a b ↔
    a.uri.toStr < b.uri.toStr ∨ (a.uri.toStr = b.uri.toStr ∧
      (a.range.start.line < b.range.start.line ∨
        (a.range.start.line = b.range.start.line ∧
          a.range.start.character ≤ b.range.start.character))) := by
  unfold locLE compareLocations
  rcases lt_trichotomy a.uri.toStr b.uri.toStr with h | h | h
  · simp [jsStrLt_iff, h, ne_of_lt h]
  · rw [if_neg (by simp [jsStrLt_iff, h]), if_neg (by simp [jsStrLt_iff, h])]
    simp only [h, lt_self_iff_false, false_or, true_and, Pos.isAfter]
    by_cases h3 : a.range.start.isBefore b.range.start
    · rw [if_pos h3]
      rw [Pos.isBefore_iff] at h3
      constructor
      · intro _; omega
      · intro _; norm_num
    · rw [if_neg h3]
      by_cases h4 : b.range.start.isBefore a.range.start
      · rw [if_pos h4]
        rw [Pos.isBefore_iff] at h4
        constructor
        · intro hc; norm_num at hc
        · intro hc; omega
      · rw [if_neg h4]
        rw [Pos.isBefore_iff] at h3 h4
        constructor
        · intro _; omega
        · intro _; norm_num
  · have hne : a.uri.toStr ≠ b.uri.toStr := (ne_of_lt h).symm
    rw [if_neg (by simp [jsStrLt_iff, not_lt_of_gt h]), if_pos ((jsStrLt_iff _ _).mpr h)]
    simp [hne, not_lt_of_gt h]

instance : IsTotal Location locLE := by
  constructor
  intro a b
  rw [locLE_iff, locLE_iff]
  rcases lt_trichotomy a.uri.toStr b.uri.toStr with h | h | h
  · exact .inl (.inl h)
  · rcases Nat.lt_trichotomy a.range.start.line b.range.start.line with hl | hl | hl
    · exact .inl (.inr ⟨h, .inl hl⟩)
    · rcases Nat.le_total a.range.start.character b.range.start.character with hc | hc
      · exact .inl (.inr ⟨h, .inr ⟨hl, hc⟩⟩)
      · exact .inr (.inr ⟨h.symm, .inr ⟨hl.symm, hc⟩⟩)
    · exact .inr (.inr ⟨h.symm, .inl hl⟩)
  · exact .inr (.inl h)

instance : IsTrans Location locLE := by
  constructor
  intro a b c
  rw [locLE_iff, locLE_iff, locLE_iff]
  rintro (h1 | ⟨h1, h1p⟩) (h2 | ⟨h2, h2p⟩)
  · exact .inl (h1.trans h2)
  · exact .inl (h2 ▸ h1)
  · exact .inl (h1 ▸ h2)
  · exact .inr ⟨h1.trans h2, by omega⟩

theorem sortLocations_sorted (locs : List Location) :
    (sortLocations locs).Pairwise locLE :=
  List.sorted_insertionSort locLE locs

theorem sortLocations_perm (locs : List Location) :
    (sortLocations locs).Perm locs :=
  List.perm_insertionSort locLE locs

/-! ## Grouping locations into `FileItem`s

Both the `ReferencesModel` constructor (src/models.ts, lines 119-131) and the
`ModelImpl` constructor (src/model.ts, lines 450-468) walk the sorted location
list keeping a pointer `last` to the most recently created file item, and start
a new file item exactly when the current location's grouping key differs from
`last`'s: `ReferencesModel` keys by `_compareUriIgnoreFragment` (the
fragment-stripped uri string) and stores the stripped uri on the `FileItem`,
`ModelImpl` keys by the full `uri.toString()` and stores the uri unchanged.
`groupRuns fu` captures both: a new group starts when `(fu loc).toStr` differs
from the group head's, and the group's file uri is `fu loc` of the head. -/

/-- `FileItem` of src/models.ts: a uri and the ordered `results` array of
reference items (a `ReferenceItem` is identified with its location). -/
structure FileItemE where
  uri : Uri
  results : List Location
deriving DecidableEq, Repr

/-- The grouping loop shared by the two constructors, written as a single pass:
`cur`/`curResults` play the role of the source's `last` pointer (its uri and its
`results` array, accumulated in reverse); a location whose key `(fu ·).toStr`
differs from `cur`'s closes the current file item and starts a new one. -/
def groupRunsGo (fu : Location → Uri) (cur : Uri) (curResults : List Location) :
    List Location → List FileItemE
  | [] => [⟨cur, curResults.reverse⟩]
  | loc :: rest =>
    if (fu loc).toStr == cur.toStr then
      groupRunsGo fu cur (loc :: curResults) rest
    else
      ⟨cur, curResults.reverse⟩ :: groupRunsGo fu (fu loc) [loc] rest

/-- The grouping loop of the two constructors: consecutive locations with equal
keys are grouped under one file item whose uri is `fu` of the run's first
location. -/
def groupRuns (fu : Location → Uri) : List Location → List FileItemE
  | [] => []
  | loc :: rest => groupRunsGo fu (fu loc) [loc] rest

/-- Reformulation of `groupRuns` by `takeWhile`/`dropWhile`, convenient for
induction (`groupRuns_eq_splitRuns` transfers all facts). -/
def splitRuns (fu : Location → Uri) : List Location → List FileItemE
  | [] => []
  | loc :: rest =>
    ⟨fu loc, loc :: rest.takeWhile (fun l => (fu l).toStr == (fu loc).toStr)⟩ ::
      splitRuns fu (rest.dropWhile (fun l => (fu l).toStr == (fu loc).toStr))
termination_by l => l.length
decreasing_by
  simp only [List.length_cons]
  exact Nat.lt_succ_of_le (List.dropWhile_suffix _).sublist.length_le

theorem groupRunsGo_eq (fu : Location → Uri) (cur : Uri) (acc : List Location)
    (l : List Location) :
    groupRunsGo fu cur acc l =
      ⟨cur, acc.reverse ++ l.takeWhile (fun x => (fu x).toStr == cur.toStr)⟩ ::
        splitRuns fu (l.dropWhile (fun x => (fu x).toStr == cur.toStr)) := by
  induction l generalizing cur acc with
  | nil => simp [groupRunsGo, splitRuns]
  | cons loc rest ih =>
    rw [groupRunsGo]
    by_cases h : ((fu loc).toStr == cur.toStr) = true
    · rw [if_pos h, ih]
      simp [List.takeWhile_cons, List.dropWhile_cons, h]
    · rw [if_neg h, ih]
      have hf : ((fu loc).toStr == cur.toStr) = false := by
        simpa using h
      simp [List.takeWhile_cons, List.dropWhile_cons, hf, splitRuns.eq_2]

theorem groupRuns_eq_splitRuns (fu : Location → Uri) (l : List Location) :
    groupRuns fu l = splitRuns fu l := by
  cases l with
  | nil => rw [groupRuns, splitRuns.eq_1]
  | cons loc rest =>
    rw [groupRuns, groupRunsGo_eq, splitRuns.eq_2]
    simp

/-- `ReferencesModel`'s `items` (src/models.ts): sort, then group by the
fragment-stripped uri string, storing `loc.uri.with({ fragment: '' })` as the
file's uri. -/
def referencesModelItems (locs : List Location) : List FileItemE :=
  groupRuns (fun l => l.uri.stripFragment) (sortLocations locs)

/-- `ModelImpl`'s file runs (src/model.ts constructor, `showFolders` off): sort,
then group by the full uri string, storing `loc.uri` as the file's uri. -/
def modelFlatFiles (locs : List Location) : List FileItemE :=
  groupRuns (fun l => l.uri) (sortLocations locs)

theorem splitRuns_join (fu : Location → Uri) (l : List Location) :
    ((splitRuns fu l).map FileItemE.results).flatten = l := by
  induction l using splitRuns.induct fu with
  | case1 => simp [splitRuns]
  | case2 loc rest ih =>
    rw [splitRuns]
    simp only [List.map_cons, List.flatten_cons, ih, List.cons_append,
      List.takeWhile_append_dropWhile]

theorem splitRuns_shape (fu : Location → Uri) (l : List Location) :
    ∀ it ∈ splitRuns fu l, ∃ x ∈ l, x ∈ it.results ∧ it.uri = fu x ∧
      (∀ y ∈ it.results, y ∈ l ∧ (fu y).toStr = (fu x).toStr) := by
  induction l using splitRuns.induct fu with
  | case1 => simp [splitRuns]
  | case2 loc rest ih =>
    intro it hit
    rw [splitRuns] at hit
    rcases List.mem_cons.mp hit with h | h
    · subst h
      refine ⟨loc, List.mem_cons_self _ _, List.mem_cons_self _ _, rfl, ?_⟩
      intro y hy
      rcases List.mem_cons.mp hy with h | h
      · subst h; exact ⟨List.mem_cons_self _ _, rfl⟩
      · refine ⟨List.mem_cons_of_mem _ ((List.takeWhile_prefix _).sublist.mem h), ?_⟩
        have := List.mem_takeWhile_imp h
        simpa using this
    · obtain ⟨x, hx, hxr, hxu, hall⟩ := ih it h
      refine ⟨x, List.mem_cons_of_mem _ ((List.dropWhile_suffix _).sublist.mem hx), hxr, hxu, ?_⟩
      intro y hy
      obtain ⟨hy1, hy2⟩ := hall y hy
      exact ⟨List.mem_cons_of_mem _ ((List.dropWhile_suffix _).sublist.mem hy1), hy2⟩

theorem keys_dropWhile_ne (fu : Location → Uri) (loc : Location) (rest : List Location)
    (hs : rest.Pairwise (fun x y => (fu x).toStr ≤ (fu y).toStr))
    (hge : ∀ y ∈ rest, (fu loc).toStr ≤ (fu y).toStr) :
    ∀ y ∈ rest.dropWhile (fun l => (fu l).toStr == (fu loc).toStr),
      (fu y).toStr ≠ (fu loc).toStr := by
  set p : Location → Bool := fun l => (fu l).toStr == (fu loc).toStr with hp
  intro y hy
  match hd : rest.dropWhile p with
  | [] => rw [hd] at hy; simp at hy
  | h :: t =>
    rw [hd] at hy
    have hhead : p h = false := by
      have hne : rest.dropWhile p ≠ [] := by rw [hd]; simp
      have := List.head_dropWhile_not p rest hne
      rwa [show (rest.dropWhile p).head hne = h by simp [hd]] at this
    have hhne : (fu h).toStr ≠ (fu loc).toStr := by
      simpa [hp] using hhead
    have hmemh : h ∈ rest := (List.dropWhile_suffix p).sublist.mem (hd ▸ List.mem_cons_self h t)
    have hlth : (fu loc).toStr < (fu h).toStr := lt_of_le_of_ne (hge h hmemh) (Ne.symm hhne)
    rcases List.mem_cons.mp hy with rfl | hyt
    · exact hhne
    · have hpair : ((h :: t).Pairwise (fun x y => (fu x).toStr ≤ (fu y).toStr)) :=
        List.Pairwise.sublist (hd ▸ (List.dropWhile_suffix p).sublist) hs
      have : (fu h).toStr ≤ (fu y).toStr := (List.pairwise_cons.mp hpair).1 y hyt
      exact fun hc => absurd (hc ▸ this) (not_le_of_lt hlth)

theorem splitRuns_keys_pairwise (fu : Location → Uri) (l : List Location)
    (hs : l.Pairwise (fun x y => (fu x).toStr ≤ (fu y).toStr)) :
    (splitRuns fu l).Pairwise (fun a b => a.uri.toStr ≠ b.uri.toStr) := by
  induction l using splitRuns.induct fu with
  | case1 => simp [splitRuns]
  | case2 loc rest ih =>
    rw [splitRuns]
    rcases List.pairwise_cons.mp hs with ⟨hge, hrest⟩
    have hdrop := keys_dropWhile_ne fu loc rest hrest hge
    refine List.pairwise_cons.mpr
      ⟨?_, ih (List.Pairwise.sublist (List.dropWhile_suffix _).sublist hrest)⟩
    intro it hit
    obtain ⟨x, hx, _, hxu, _⟩ := splitRuns_shape fu _ it hit
    simp only [hxu]
    exact fun hc => absurd hc.symm (hdrop x hx)

theorem splitRuns_results_sorted (fu : Location → Uri) (l : List Location)
    (hs : l.Pairwise locLE)
    (hfree : ∀ x ∈ l, (fu x).toStr = x.uri.toStr) :
    ∀ it ∈ splitRuns fu l, it.results.Pairwise
      (fun x y => x.range.start.isBeforeOrEqual y.range.start = true) := by
  induction l using splitRuns.induct fu with
  | case1 => simp [splitRuns]
  | case2 loc rest ih =>
    intro it hit
    rw [splitRuns] at hit
    rcases List.mem_cons.mp hit with h | h
    · subst h
      have hpref : (loc :: rest.takeWhile (fun l => (fu l).toStr == (fu loc).toStr)).Sublist
          (loc :: rest) := (List.takeWhile_prefix _).sublist.cons₂ loc
      have hsorted := List.Pairwise.sublist hpref hs
      have hkeys : ∀ y ∈ loc :: rest.takeWhile (fun l => (fu l).toStr == (fu loc).toStr),
          (fu y).toStr = (fu loc).toStr := by
        intro y hy
        rcases List.mem_cons.mp hy with rfl | hy
        · rfl
        · simpa using List.mem_takeWhile_imp hy
      refine List.Pairwise.imp_of_mem ?_ hsorted
      intro x y hx hy hxy
      have hxl : x ∈ loc :: rest := hpref.mem hx
      have hyl : y ∈ loc :: rest := hpref.mem hy
      have hkey : x.uri.toStr = y.uri.toStr := by
        rw [← hfree x hxl, ← hfree y hyl, hkeys x hx, hkeys y hy]
      rw [locLE_iff] at hxy
      rw [Pos.isBeforeOrEqual_iff]
      rcases hxy with hlt | ⟨_, hpos⟩
      · exact absurd hkey (ne_of_lt hlt)
      · exact hpos
    · exact ih (List.Pairwise.sublist
          (((List.dropWhile_suffix _).sublist).trans (List.sublist_cons_self _ _)) hs)
        (fun x hx => hfree x (List.mem_cons_of_mem _ ((List.dropWhile_suffix _).sublist.mem hx)))
        it h

theorem splitRuns_results_key (fu : Location → Uri) (l : List Location) :
    ∀ it ∈ splitRuns fu l, ∀ y ∈ it.results, (fu y).toStr = it.uri.toStr := by
  intro it hit y hy
  obtain ⟨x, _, _, hxu, hall⟩ := splitRuns_shape fu l it hit
  rw [(hall y hy).2, hxu]

theorem splitRuns_mem_of_mem (fu : Location → Uri) (l : List Location) :
    ∀ x ∈ l, ∃ it ∈ splitRuns fu l, x ∈ it.results := by
  intro x hx
  have := splitRuns_join fu l
  rw [← this] at hx
  rcases List.mem_flatten.mp hx with ⟨res, hres, hxres⟩
  rcases List.mem_map.mp hres with ⟨it, hit, rfl⟩
  exact ⟨it, hit, hxres⟩

theorem locLE_toStr_le {x y : Location} (h : locLE x y) : x.uri.toStr ≤ y.uri.toStr := by
  rw [locLE_iff] at h
  rcases h with h | ⟨h, _⟩
  · exact le_of_lt h
  · exact le_of_eq h

theorem stripFragment_toStr_of_free {u : Uri} (h : u.fragment = "") :
    u.stripFragment.toStr = u.toStr := by
  rcases u with ⟨b, p, f⟩
  simp only at h
  simp [Uri.stripFragment, h]

/-- C1, counterexample to the claim as stated: the constructor sorts by the
*full* uri string but groups consecutive runs by the *fragment-stripped* uri
string.  With locations at `file:///a#z`, `file:///a!b` and `file:///a`, the
sort order is `file:///a` < `file:///a!b` < `file:///a#z` (the code unit of `!`
is below that of `#`), so the two locations whose normalized identity is
`file:///a` are not adjacent and end up under two distinct `FileItem`s; the
claimed "exactly one FileItem per normalized identity" fails. -/
theorem grouping_fragment_counterexample :
    referencesModelItems
        [⟨⟨"file:///a", "/a", "z"⟩, ⟨⟨0, 0⟩, ⟨0, 1⟩⟩⟩,
         ⟨⟨"file:///a!b", "/a!b", ""⟩, ⟨⟨0, 0⟩, ⟨0, 1⟩⟩⟩,
         ⟨⟨"file:///a", "/a", ""⟩, ⟨⟨1, 0⟩, ⟨1, 1⟩⟩⟩] =
      [⟨⟨"file:///a", "/a", ""⟩, [⟨⟨"file:///a", "/a", ""⟩, ⟨⟨1, 0⟩, ⟨1, 1⟩⟩⟩]⟩,
       ⟨⟨"file:///a!b", "/a!b", ""⟩, [⟨⟨"file:///a!b", "/a!b", ""⟩, ⟨⟨0, 0⟩, ⟨0, 1⟩⟩⟩]⟩,
       ⟨⟨"file:///a", "/a", ""⟩, [⟨⟨"file:///a", "/a", "z"⟩, ⟨⟨0, 0⟩, ⟨0, 1⟩⟩⟩]⟩] ∧
      (⟨"file:///a", "/a", "z"⟩ : Uri).stripFragment =
        (⟨"file:///a", "/a", ""⟩ : Uri).stripFragment := by
  constructor
  · decide
  · decide

/-- C1 (amended): provided every input location's uri is fragment-free (so that
the sort key and the grouping key agree), both constructors group all locations
sharing a document identity under exactly one `FileItem` — the items carry
pairwise distinct identity strings, every location lands in some item, and an
item holds only locations of its identity — and within every `FileItem` the
`ReferenceItem`s are ordered ascending (non-decreasing) by start position.
Stated for the `ReferencesModel` hierarchy (src/models.ts) and for the file
runs of `ModelImpl` (src/model.ts, which stores them directly as the root's
files when `showFolders` is off). -/
theorem grouping_by_identity (locs : List Location)
    (hfrag : ∀ l ∈ locs, l.uri.fragment = "") :
    ((referencesModelItems locs).Pairwise (fun a b => a.uri.toStr ≠ b.uri.toStr)
      ∧ (∀ l ∈ locs, ∃ it ∈ referencesModelItems locs, l ∈ it.results)
      ∧ (∀ it ∈ referencesModelItems locs, ∀ x ∈ it.results,
          x.uri.stripFragment.toStr = it.uri.toStr)
      ∧ (∀ it ∈ referencesModelItems locs, it.results.Pairwise
          (fun x y => x.range.start.isBeforeOrEqual y.range.start = true)))
    ∧ ((modelFlatFiles locs).Pairwise (fun a b => a.uri.toStr ≠ b.uri.toStr)
      ∧ (∀ l ∈ locs, ∃ it ∈ modelFlatFiles locs, l ∈ it.results)
      ∧ (∀ it ∈ modelFlatFiles locs, ∀ x ∈ it.results, x.uri.toStr = it.uri.toStr)
      ∧ (∀ it ∈ modelFlatFiles locs, it.results.Pairwise
          (fun x y => x.range.start.isBeforeOrEqual y.range.start = true))) := by
  have hsorted := sortLocations_sorted locs
  have hmem : ∀ l ∈ locs, l ∈ sortLocations locs :=
    fun l hl => (sortLocations_perm locs).mem_iff.mpr hl
  have hmem' : ∀ l ∈ sortLocations locs, l ∈ locs :=
    fun l hl => (sortLocations_perm locs).mem_iff.mp hl
  have hfree : ∀ x ∈ sortLocations locs, (x.uri.stripFragment).toStr = x.uri.toStr :=
    fun x hx => stripFragment_toStr_of_free (hfrag x (hmem' x hx))
  constructor
  · refine ⟨?_, ?_, ?_, ?_⟩
    · rw [referencesModelItems, groupRuns_eq_splitRuns]
      apply splitRuns_keys_pairwise
      refine List.Pairwise.imp_of_mem ?_ hsorted
      intro x y hx hy hxy
      rw [hfree x hx, hfree y hy]
      exact locLE_toStr_le hxy
    · intro l hl
      rw [referencesModelItems, groupRuns_eq_splitRuns]
      exact splitRuns_mem_of_mem _ _ l (hmem l hl)
    · intro it hit
      rw [referencesModelItems, groupRuns_eq_splitRuns] at hit
      exact splitRuns_results_key _ _ it hit
    · intro it hit
      rw [referencesModelItems, groupRuns_eq_splitRuns] at hit
      exact splitRuns_results_sorted _ _ hsorted hfree it hit
  · refine ⟨?_, ?_, ?_, ?_⟩
    · rw [modelFlatFiles, groupRuns_eq_splitRuns]
      apply splitRuns_keys_pairwise
      exact List.Pairwise.imp (fun hxy => locLE_toStr_le hxy) hsorted
    · intro l hl
      rw [modelFlatFiles, groupRuns_eq_splitRuns]
      exact splitRuns_mem_of_mem _ _ l (hmem l hl)
    · intro it hit
      rw [modelFlatFiles, groupRuns_eq_splitRuns] at hit
      exact splitRuns_results_key _ _ it hit
    · intro it hit
      rw [modelFlatFiles, groupRuns_eq_splitRuns] at hit
      exact splitRuns_results_sorted _ _ hsorted (fun x _ => rfl) it hit

/-- The spec's scenario input: two locations in `file:///a.ts` (line 10) and
one in `file:///b.ts` (line 3), all fragment-free. -/
def scenarioLocs : List Location :=
  [⟨⟨"file:///a.ts", "/a.ts", ""⟩, ⟨⟨10, 0⟩, ⟨10, 1⟩⟩⟩,
   ⟨⟨"file:///a.ts", "/a.ts", ""⟩, ⟨⟨10, 5⟩, ⟨10, 6⟩⟩⟩,
   ⟨⟨"file:///b.ts", "/b.ts", ""⟩, ⟨⟨3, 0⟩, ⟨3, 1⟩⟩⟩]

/-- Witness for `grouping_by_identity` at the spec's scenario input. -/
theorem grouping_by_identity_witness :
    (∀ l ∈ scenarioLocs, l.uri.fragment = "")
      ∧ (referencesModelItems scenarioLocs).Pairwise (fun a b => a.uri.toStr ≠ b.uri.toStr)
      ∧ (∀ it ∈ referencesModelItems scenarioLocs, it.results.Pairwise
          (fun x y => x.range.start.isBeforeOrEqual y.range.start = true)) :=
  ⟨by decide,
   (grouping_by_identity scenarioLocs (by decide)).1.1,
   (grouping_by_identity scenarioLocs (by decide)).1.2.2.2⟩

/-! ## `ReferencesModel.first` (src/models.ts lines 183-227)

The nearest-reference heuristic: find the anchor's file, then (1) a reference
containing the anchor position, (2) the first reference ending after it, else
the last one; when the anchor has no file, (3) fall back to the file with the
best common-prefix score.  Step (3) contains two slips kept faithfully here:
the seed `bestValue` is `_prefixLen(items[best].toString(), ...)` — called on
the `FileItem` object, which JavaScript renders as `"[object Object]"` — and
`bestValue` is never updated when a better item is found. -/

/-- `ReferencesModel._prefixLen` (src/models.ts lines 300-306): the number of
leading positions at which the two strings' code units agree. -/
def prefixLenL : List Char → List Char → Nat
  | a :: as, b :: bs => if a = b then 1 + prefixLenL as bs else 0
  | _, _ => 0

def prefixLen (a b : String) : Nat :=
  prefixLenL a.toList b.toList

/-- What `String(object)` yields for a `FileItem` (no custom `toString`). -/
def jsObjectString : String := "[object Object]"

/-- The body of `first` once the anchor's `FileItem` is found: (1) first
reference whose range contains the request position, (2) first reference whose
range ends after it, else `lastBefore` (the file's last reference); `none`
models reaching the `break` statement, possible only for an empty `results`. -/
def firstInFile (results : List Location) (pos : Pos) : Option Location :=
  match results.find? (fun r => r.range.containsPos pos) with
  | some r => some r
  | none =>
    match results.find? (fun r => r.range.stop.isAfter pos) with
    | some r => some r
    | none => results.getLast?

/-- The `best`-selection loop of step (3): `best` starts at 0, and each later
index whose prefix score exceeds the (never-updated) seed overwrites it. -/
def prefixBestLoop (ustr : String) (bestValue : Nat) :
    List (Nat × FileItemE) → Nat → Nat
  | [], best => best
  | (i, it) :: rest, best =>
    prefixBestLoop ustr bestValue rest
      (if bestValue < prefixLen it.uri.toStr ustr then i else best)

/-- Step (3) of `ReferencesModel.first`: pick `items[best].results[0]` where
`best` comes from `prefixBestLoop` seeded with the prefix score of
`"[object Object]"` against the anchor string. -/
def firstByPrefix (items : List FileItemE) (u : Uri) : Option Location :=
  match items with
  | [] => none
  | it0 :: rest =>
    let bestValue := prefixLen jsObjectString u.toStr
    let best := prefixBestLoop u.toStr bestValue
      (rest.enum.map (fun p => (p.1 + 1, p.2))) 0
    ((it0 :: rest).get? best).bind (fun it => it.results.get? 0)

/-- `ReferencesModel.first` (src/models.ts lines 183-227). -/
def referencesFirst (items : List FileItemE) (u : Uri) (pos : Pos) : Option Location :=
  if items.isEmpty then none
  else
    match items.find? (fun it => it.uri.toStr == u.toStr) with
    | some it =>
      match firstInFile it.results pos with
      | some r => some r
      | none => firstByPrefix items u
    | none => firstByPrefix items u

/-- C4 (amended), `ReferencesModel` half: when the anchor document has a
`FileItem` (the first uri match in the item list) with a non-empty `results`
array, `first` returns the first reference containing the anchor position, else
the first reference ending after it, else the file's last reference. -/
theorem referencesFirst_anchor_cases (pre post : List FileItemE) (item : FileItemE)
    (u : Uri) (pos : Pos)
    (hpre : ∀ x ∈ pre, x.uri.toStr ≠ u.toStr)
    (hmatch : item.uri.toStr = u.toStr)
    (hne : item.results ≠ []) :
    referencesFirst (pre ++ item :: post) u pos =
      match item.results.find? (fun r => r.range.containsPos pos) with
      | some r => some r
      | none =>
        match item.results.find? (fun r => r.range.stop.isAfter pos) with
        | some r => some r
        | none => item.results.getLast? := by
  have hfind : (pre ++ item :: post).find? (fun it => it.uri.toStr == u.toStr) = some item := by
    rw [List.find?_append]
    have h1 : pre.find? (fun it => it.uri.toStr == u.toStr) = none := by
      rw [List.find?_eq_none]
      intro x hx
      simpa using hpre x hx
    rw [h1]
    simp [List.find?_cons, hmatch]
  have hnonempty : ((pre ++ item :: post).isEmpty) = false := by
    simp
  rw [referencesFirst, hnonempty]
  simp only [Bool.false_eq_true, if_false, hfind]
  unfold firstInFile
  cases hc : item.results.find? (fun r => r.range.containsPos pos) with
  | some r => rfl
  | none =>
    cases ha : item.results.find? (fun r => r.range.stop.isAfter pos) with
    | some r => rfl
    | none =>
      cases hl : item.results.getLast? with
      | some r => rfl
      | none => exact absurd (List.getLast?_eq_none_iff.mp hl) hne

/-- C5: `first`'s longest-common-prefix fallback does not pick the file with
the longest common prefix.  With files `file:///aaa` and `file:///b` and anchor
`file:///aab` (which has no file of its own), the common prefixes have lengths
10 and 8, yet `first` returns the reference of `file:///b`: the seed score is
computed from `"[object Object]"` (0 here) instead of the first file's uri, and
the seed is never updated, so the last file scoring above it wins. -/
theorem first_longest_prefix_bug :
    referencesFirst
        [⟨⟨"file:///aaa", "/aaa", ""⟩, [⟨⟨"file:///aaa", "/aaa", ""⟩, ⟨⟨0, 0⟩, ⟨0, 1⟩⟩⟩]⟩,
         ⟨⟨"file:///b", "/b", ""⟩, [⟨⟨"file:///b", "/b", ""⟩, ⟨⟨5, 0⟩, ⟨5, 1⟩⟩⟩]⟩]
        ⟨"file:///aab", "/aab", ""⟩ ⟨0, 0⟩ =
      some ⟨⟨"file:///b", "/b", ""⟩, ⟨⟨5, 0⟩, ⟨5, 1⟩⟩⟩
    ∧ prefixLen "file:///b" "file:///aab" < prefixLen "file:///aaa" "file:///aab" := by
  constructor
  · decide
  · decide

/-! ## `History` (src/history.ts lines 95-128)

The container is a JavaScript `Map<string, HistoryItem>`, modelled as its entry
list in insertion order: `Map` iterates in insertion order, `set` of an
existing key keeps its position, and `delete` removes the entry. -/

/-- `HistoryItem` (src/history.ts): the fields `History` reads (`id` is the
deduplication key, built deterministically by `HistoryItem.makeId` from the
search kind, uri and position). -/
structure HistoryItemE where
  id : String
  label : String
  description : String
  uri : Uri
deriving DecidableEq, Repr

/-- JavaScript `Map.prototype.delete`: drop the entry with the given key. -/
def mapDelete (m : List (String × HistoryItemE)) (k : String) :
    List (String × HistoryItemE) :=
  m.filter (fun e => e.1 ≠ k)

/-- JavaScript `Map.prototype.set`: update in place when the key is present
(keeping its position), otherwise append at the most-recent end. -/
def mapSet (m : List (String × HistoryItemE)) (k : String) (v : HistoryItemE) :
    List (String × HistoryItemE) :=
  if m.any (fun e => e.1 == k) then
    m.map (fun e => if e.1 == k then (k, v) else e)
  else
    m ++ [(k, v)]

/-- `History.add` (src/history.ts lines 110-118): " maps have filo-ordering and
by delete-insert we make sure to update the order for re-run queries ". -/
def historyAdd (m : List (String × HistoryItemE)) (item : Option HistoryItemE) :
    List (String × HistoryItemE) :=
  match item with
  | none => m
  | some it => mapSet (mapDelete m it.id) it.id it

/-- `History[Symbol.iterator]` (src/history.ts lines 103-108): the map's values
iterated backwards, i.e. most recently inserted first. -/
def historyIter (m : List (String × HistoryItemE)) : List HistoryItemE :=
  (m.map Prod.snd).reverse

/-- C7: `add` moves an existing id to the most-recent position without
duplicating it, inserts a new id at the most-recent position, keeps the other
entries (in their relative order), and iteration yields the most recently added
entry first. -/
theorem history_add_mru (m : List (String × HistoryItemE)) (it : HistoryItemE) :
    historyAdd m (some it) = mapDelete m it.id ++ [(it.id, it)]
    ∧ (historyAdd m (some it)).countP (fun e => e.1 == it.id) = 1
    ∧ historyIter (historyAdd m (some it)) = it :: historyIter (mapDelete m it.id)
    ∧ (mapDelete m it.id).Sublist m := by
  have hnone : (mapDelete m it.id).any (fun e => e.1 == it.id) = false := by
    rw [Bool.eq_false_iff]
    intro hc
    rcases List.any_eq_true.mp hc with ⟨e, he, hek⟩
    rcases List.mem_filter.mp he with ⟨_, hne⟩
    exact absurd (by simpa using hek) (by simpa using hne)
  have heq : historyAdd m (some it) = mapDelete m it.id ++ [(it.id, it)] := by
    rw [historyAdd, mapSet, hnone]
    simp
  refine ⟨heq, ?_, ?_, List.filter_sublist m⟩
  · rw [heq, List.countP_append]
    have h0 : (mapDelete m it.id).countP (fun e => e.1 == it.id) = 0 := by
      rw [List.countP_eq_zero]
      intro e he
      rcases List.mem_filter.mp he with ⟨_, hne⟩
      simpa using (by simpa using hne : e.1 ≠ it.id)
    rw [h0]
    simp
  · rw [heq, historyIter, historyIter]
    simp

/-! ## `CallsModel` (src/calls/model.ts)

`CallItem` carries a call hierarchy item, the implicating locations and the
lazily resolved `children`; the parent link is passed separately where a method
reads it (`item.parent?.children` becomes an `Option (List CallItemE)`
argument). -/

/-- `vscode.CallHierarchyItem`, reduced to the fields read by the model. -/
structure CallHierarchyItemE where
  name : String
  uri : Uri
deriving DecidableEq, Repr

/-- `CallItem` (src/calls/model.ts lines 51-60). -/
inductive CallItemE where
  | mk (item : CallHierarchyItemE) (locations : Option (List Location))
      (children : Option (List CallItemE))

mutual

def decEqCallItem : (a b : CallItemE) → Decidable (a = b)
  | .mk i1 l1 c1, .mk i2 l2 c2 =>
    if h1 : i1 = i2 then
      if h2 : l1 = l2 then
        match decEqCallOpt c1 c2 with
        | isTrue h3 => isTrue (by rw [h1, h2, h3])
        | isFalse h3 => isFalse (fun hc => by injection hc; contradiction)
      else isFalse (fun hc => by injection hc; contradiction)
    else isFalse (fun hc => by injection hc; contradiction)

def decEqCallOpt : (a b : Option (List CallItemE)) → Decidable (a = b)
  | none, none => isTrue rfl
  | some x, some y =>
    match decEqCallList x y with
    | isTrue h => isTrue (by rw [h])
    | isFalse h => isFalse (fun hc => by injection hc; contradiction)
  | none, some _ => isFalse (fun hc => by cases hc)
  | some _, none => isFalse (fun hc => by cases hc)

def decEqCallList : (a b : List CallItemE) → Decidable (a = b)
  | [], [] => isTrue rfl
  | x :: xs, y :: ys =>
    match decEqCallItem x y, decEqCallList xs ys with
    | isTrue h1, isTrue h2 => isTrue (by rw [h1, h2])
    | isFalse h1, _ => isFalse (fun hc => by injection hc; contradiction)
    | isTrue _, isFalse h2 => isFalse (fun hc => by injection hc; contradiction)
  | [], _ :: _ => isFalse (fun hc => by cases hc)
  | _ :: _, [] => isFalse (fun hc => by cases hc)

end

instance : DecidableEq CallItemE := decEqCallItem

def CallItemE.item : CallItemE → CallHierarchyItemE
  | .mk i _ _ => i

def CallItemE.locations : CallItemE → Option (List Location)
  | .mk _ l _ => l

def CallItemE.children : CallItemE → Option (List CallItemE)
  | .mk _ _ c => c

def CallItemE.withChildren : CallItemE → Option (List CallItemE) → CallItemE
  | .mk i l _, c => .mk i l c

/-- `new CallItem(item, undefined, undefined)` for the prepared roots
(src/calls/model.ts line 72): `children` starts undefined. -/
def mkRootCallItem (item : CallHierarchyItemE) : CallItemE :=
  .mk item none none

/-- `CallsModel.getCallChildren` (src/calls/model.ts lines 85-90), with
`resolve` standing for one `_resolveCalls` provider round trip: returns the
children, the node as updated in place, and the number of provider
invocations made by this call. -/
def getCallChildren (resolve : CallItemE → List CallItemE) (call : CallItemE) :
    List CallItemE × CallItemE × Nat :=
  match call.children with
  | some cs => (cs, call, 0)
  | none =>
    let cs := resolve call
    (cs, call.withChildren (some cs), 1)

/-- C9: a `CallItem`'s `children` is undefined at construction; the first
`getCallChildren` invokes the provider exactly once and stores the result on
the node; every later `getCallChildren` — under any provider — returns the
cached array with zero provider invocations and leaves the node unchanged. -/
theorem getCallChildren_caches (resolve : CallItemE → List CallItemE)
    (call : CallItemE) (h : call.children = none) :
    (∀ item, (mkRootCallItem item).children = none)
    ∧ (getCallChildren resolve call).2.2 = 1
    ∧ (getCallChildren resolve call).1 = resolve call
    ∧ (getCallChildren resolve call).2.1.children = some (resolve call)
    ∧ (∀ resolve2, getCallChildren resolve2 (getCallChildren resolve call).2.1 =
        (resolve call, (getCallChildren resolve call).2.1, 0)) := by
  have hstep : getCallChildren resolve call =
      (resolve call, call.withChildren (some (resolve call)), 1) := by
    rw [getCallChildren, h]
  have hchild : (call.withChildren (some (resolve call))).children =
      some (resolve call) := by
    cases call; rfl
  refine ⟨fun item => rfl, ?_, ?_, ?_, ?_⟩
  · rw [hstep]
  · rw [hstep]
  · rw [hstep]; exact hchild
  · intro resolve2
    rw [hstep]
    rw [getCallChildren, hchild]

/-- Witness for `getCallChildren_caches`: a fresh root node and a provider
returning one child. -/
theorem getCallChildren_caches_witness :
    (mkRootCallItem ⟨"main", ⟨"file:///m.ts", "/m.ts", ""⟩⟩).children = none
    ∧ ((getCallChildren (fun _ => [mkRootCallItem ⟨"callee", ⟨"file:///c.ts", "/c.ts", ""⟩⟩])
        (mkRootCallItem ⟨"main", ⟨"file:///m.ts", "/m.ts", ""⟩⟩)).2.2 = 1
      ∧ (getCallChildren (fun _ => [mkRootCallItem ⟨"callee", ⟨"file:///c.ts", "/c.ts", ""⟩⟩])
        (mkRootCallItem ⟨"main", ⟨"file:///m.ts", "/m.ts", ""⟩⟩)).1 =
          [mkRootCallItem ⟨"callee", ⟨"file:///c.ts", "/c.ts", ""⟩⟩]) :=
  ⟨rfl,
   (getCallChildren_caches (fun _ => [mkRootCallItem ⟨"callee", ⟨"file:///c.ts", "/c.ts", ""⟩⟩])
      (mkRootCallItem ⟨"main", ⟨"file:///m.ts", "/m.ts", ""⟩⟩) rfl).2.1,
   (getCallChildren_caches (fun _ => [mkRootCallItem ⟨"callee", ⟨"file:///c.ts", "/c.ts", ""⟩⟩])
      (mkRootCallItem ⟨"main", ⟨"file:///m.ts", "/m.ts", ""⟩⟩) rfl).2.2.1⟩

/-- JavaScript `Array.prototype.indexOf`: the index of the element, `-1` when
absent (equality of values stands for the object identity of distinct nodes). -/
def jsIndexOfAux [BEq α] (x : α) : List α → Int → Int
  | [], _ => -1
  | a :: as, i => if a == x then i else jsIndexOfAux x as (i + 1)

def jsIndexOf [BEq α] (l : List α) (x : α) : Int :=
  jsIndexOfAux x l 0

/-- JavaScript array subscript with a possibly out-of-range index. -/
def jsGet (l : List α) (i : Int) : Option α :=
  if i < 0 then none else l.get? i.toNat

/-- `CallsModel._move` (src/calls/model.ts lines 104-117), kept faithful to the
source: the test `roots.indexOf(item) ? roots : item.parent?.children` treats
the index as a boolean — truthy for every value except `0`, including `-1` when
the item is not a root — and the index arithmetic parses as
`idx + (1 % array.length)` and `idx + -1 + (array.length % array.length)`
because `%` binds tighter than `+`. -/
def callsMove (roots : List CallItemE) (parentChildren : Option (List CallItemE))
    (item : CallItemE) (fwd : Bool) : Option CallItemE :=
  let arr? := if jsIndexOf roots item ≠ 0 then some roots else parentChildren
  match arr? with
  | none => none
  | some arr =>
    if arr.length = 0 then none
    else
      let idx := jsIndexOf arr item
      if fwd then jsGet arr (idx + (1 % (arr.length : Int)))
      else jsGet arr (idx + -1 + ((arr.length : Int) % (arr.length : Int)))

/-- `CallsModel.next` (line 96-98): `this._move(from, true) ?? from`. -/
def callsNext (roots : List CallItemE) (parentChildren : Option (List CallItemE))
    (item : CallItemE) : CallItemE :=
  (callsMove roots parentChildren item true).getD item

/-- `CallsModel.previous` (line 100-102). -/
def callsPrevious (roots : List CallItemE) (parentChildren : Option (List CallItemE))
    (item : CallItemE) : CallItemE :=
  (callsMove roots parentChildren item false).getD item

/-- C10: `next`/`previous` are total (the `?? from` fallback prevents
`undefined`), but the clause "returns the argument itself whenever no sibling
move is possible" fails: for a non-root item that is its parent's only child,
`roots.indexOf(item)` is `-1`, which is truthy, so `_move` searches the *roots*
array and `next` returns the first root instead of the argument.  Here `c` is
the sole child of root `r1` (so no sibling move is possible), yet
`next(c) = r1 ≠ c`. -/
theorem callsNext_wrong_array_bug :
    (let c : CallItemE := .mk ⟨"child", ⟨"file:///c.ts", "/c.ts", ""⟩⟩ none none
     let r1 : CallItemE := .mk ⟨"rootOne", ⟨"file:///r1.ts", "/r1.ts", ""⟩⟩ none (some [c])
     let r2 : CallItemE := .mk ⟨"rootTwo", ⟨"file:///r2.ts", "/r2.ts", ""⟩⟩ none none
     [c].length = 1 ∧ callsNext [r1, r2] (some [c]) c = r1 ∧ r1 ≠ c
       ∧ callsPrevious [r1, r2] (some [c]) c = c) := by
  decide

/-! ## The folder-grouping model (src/model.ts)

`ModelImpl` arranges `FileItemImpl`s under a tree of `FolderItemImpl`s rooted
at an unnamed root folder.  The tree is embedded as a nested inductive;
attached nodes are addressed by paths — for folders a *leaf-first* chain of
indices into the successive `folders` arrays (`[]` is the root), for files and
references the chain plus the index into `files` / `references`.  Object
identity (`indexOf`, `===`) on attached nodes corresponds to path indices. -/

/-- `FileItemImpl` (src/model.ts lines 231-359): a uri and its ordered
references (a `ReferenceItemImpl` is identified with its location). -/
structure FileT where
  uri : Uri
  references : List Location
deriving DecidableEq, Repr

/-- `FolderItemImpl` (src/model.ts lines 86-229): a name, the child files and
the child folders (folders are displayed and traversed before files). -/
inductive FolderT where
  | mk (name : String) (files : List FileT) (folders : List FolderT)

def FolderT.name : FolderT → String
  | .mk n _ _ => n

def FolderT.files : FolderT → List FileT
  | .mk _ fs _ => fs

def FolderT.folders : FolderT → List FolderT
  | .mk _ _ cs => cs

def FolderT.withName : FolderT → String → FolderT
  | .mk _ fs cs, n => .mk n fs cs

def FolderT.withFiles : FolderT → List FileT → FolderT
  | .mk n _ cs, fs => .mk n fs cs

def FolderT.withFolders : FolderT → List FolderT → FolderT
  | .mk n fs _, cs => .mk n fs cs

/-- `FolderItemImpl.isEmpty`: no child folders and no child files. -/
def FolderT.isEmptyFolder (f : FolderT) : Bool :=
  f.folders.isEmpty && f.files.isEmpty

mutual

def decEqFolder : (a b : FolderT) → Decidable (a = b)
  | .mk n1 f1 c1, .mk n2 f2 c2 =>
    if h1 : n1 = n2 then
      if h2 : f1 = f2 then
        match decEqFolderList c1 c2 with
        | isTrue h3 => isTrue (by rw [h1, h2, h3])
        | isFalse h3 => isFalse (fun hc => by injection hc; contradiction)
      else isFalse (fun hc => by injection hc; contradiction)
    else isFalse (fun hc => by injection hc; contradiction)

def decEqFolderList : (a b : List FolderT) → Decidable (a = b)
  | [], [] => isTrue rfl
  | x :: xs, y :: ys =>
    match decEqFolder x y, decEqFolderList xs ys with
    | isTrue h1, isTrue h2 => isTrue (by rw [h1, h2])
    | isFalse h1, _ => isFalse (fun hc => by injection hc; contradiction)
    | isTrue _, isFalse h2 => isFalse (fun hc => by injection hc; contradiction)
  | [], _ :: _ => isFalse (fun hc => by cases hc)
  | _ :: _, [] => isFalse (fun hc => by cases hc)

end

instance : DecidableEq FolderT := decEqFolder

/-! Size measure used for termination: the number of folder nodes. -/

mutual
def folderCount : FolderT → Nat
  | .mk _ _ folders => 1 + folderCountL folders
def folderCountL : List FolderT → Nat
  | [] => 0
  | c :: cs => folderCount c + folderCountL cs
end

theorem folderCount_pos (f : FolderT) : 0 < folderCount f := by
  cases f with
  | mk n fs cs => rw [folderCount]; omega

theorem folderCount_withName (f : FolderT) (n : String) :
    folderCount (f.withName n) = folderCount f := by
  cases f; rfl

theorem folderCountL_mem_le (c : FolderT) (cs : List FolderT) (h : c ∈ cs) :
    folderCount c ≤ folderCountL cs := by
  induction cs with
  | nil => cases h
  | cons a as ih =>
    rw [folderCountL]
    rcases List.mem_cons.mp h with rfl | h
    · omega
    · have := ih h; omega

theorem folderCount_child_lt (c : FolderT) (f : FolderT) (h : c ∈ f.folders) :
    folderCount c < folderCount f := by
  cases f with
  | mk n fs cs =>
    rw [folderCount]
    have := folderCountL_mem_le c cs (by simpa [FolderT.folders] using h)
    omega

theorem folderCountL_lt (f : FolderT) : folderCountL f.folders < folderCount f := by
  cases f with
  | mk n fs cs => rw [folderCount, FolderT.folders]; omega

/-- The `while` loop of `ModelImpl.compactTree` together with
`ModelImpl.compactFolder` (src/model.ts lines 628-669), for a non-root folder:
while the folder has zero files and exactly one child folder, merge it into
that child (the child's name becomes `parent + '/' + child`) and continue from
the merged folder. -/
def compactChain : FolderT → FolderT
  | .mk name [] [c] => compactChain (c.withName (name ++ "/" ++ c.name))
  | f => f
termination_by f => folderCount f
decreasing_by
  rw [folderCount_withName]
  exact folderCount_child_lt c (.mk name [] [c]) (by simp [FolderT.folders])

theorem folderCount_compactChain_le (f : FolderT) :
    folderCount (compactChain f) ≤ folderCount f := by
  induction f using compactChain.induct with
  | case1 name c ih =>
    rw [compactChain]
    calc folderCount (compactChain (c.withName (name ++ "/" ++ c.name)))
        ≤ folderCount (c.withName (name ++ "/" ++ c.name)) := ih
      _ ≤ folderCount (.mk name [] [c]) := by
          rw [folderCount_withName]
          exact le_of_lt (folderCount_child_lt c _ (by simp [FolderT.folders]))
  | case2 f h =>
    have heq : compactChain f = f := by
      rw [compactChain.eq_def]
      split
      · exact absurd rfl (h _ _)
      · rfl
    rw [heq]

/-- Whether `compactFolder` fires on this folder at all: zero files and
exactly one child folder (src/model.ts line 652). -/
def chainShape : FolderT → Bool
  | .mk _ [] [_] => true
  | _ => false

/-- The `while` loop of `ModelImpl.compactTree` on one node: `compactFolder`
returns `undefined` at the root, so the root is never chain-compacted
(src/model.ts lines 648-650); otherwise the chain collapses fully and the
Boolean records whether at least one merge happened (it did exactly when the
first `compactFolder` call fired, i.e. when the node has the chain shape). -/
def compactStep (f : FolderT) (isRoot : Bool) : FolderT × Bool :=
  if isRoot then (f, false) else (compactChain f, chainShape f)

theorem folderCount_compactStep_le (f : FolderT) (isRoot : Bool) :
    folderCount (compactStep f isRoot).1 ≤ folderCount f := by
  rw [compactStep]
  split
  · exact le_refl _
  · exact folderCount_compactChain_le f

mutual
/-- `ModelImpl.compactTree` (src/model.ts lines 628-645): chain-compact the
folder itself (unless it is the root), then walk the child folders with the
accumulated `compacted` Boolean.  Because the source writes
`compacted = compacted || this.compactTree(child)` and `||` short-circuits,
once any compaction has happened the remaining children are not visited at
all. -/
def compactTree (f : FolderT) (isRoot : Bool) : FolderT × Bool :=
  ((compactStep f isRoot).1.withFolders
      (compactTreeL (compactStep f isRoot).1.folders (compactStep f isRoot).2).1,
    (compactTreeL (compactStep f isRoot).1.folders (compactStep f isRoot).2).2)
termination_by (folderCount f, 0)
decreasing_by
  all_goals
    refine Prod.Lex.left _ _ ?_
    calc folderCountL (compactStep f isRoot).1.folders
        < folderCount (compactStep f isRoot).1 := folderCountL_lt _
      _ ≤ folderCount f := folderCount_compactStep_le f isRoot

def compactTreeL : List FolderT → Bool → List FolderT × Bool
  | cs, true => (cs, true)
  | [], false => ([], false)
  | c :: cs, false =>
    ((compactTree c false).1 :: (compactTreeL cs (compactTree c false).2).1,
      (compactTreeL cs (compactTree c false).2).2)
termination_by cs _ => (folderCountL cs, 1)
decreasing_by
  all_goals first
    | (rcases Nat.lt_or_ge (folderCount c) (folderCountL (c :: cs)) with h | h
       exacts [Prod.Lex.left _ _ h, by
        have hle : folderCount c ≤ folderCountL (c :: cs) := by rw [folderCountL]; omega
        have heq : folderCount c = folderCountL (c :: cs) := le_antisymm hle h
        rw [heq]
        exact Prod.Lex.right _ (by omega)])
    | (refine Prod.Lex.left _ _ ?_
       rw [folderCountL]
       have := folderCount_pos c
       omega)
end

/-- A folder satisfying the compaction invariant locally: not (zero files and
exactly one child folder). -/
def goodFolder (f : FolderT) : Bool :=
  !(f.files.isEmpty && f.folders.length == 1)

mutual
/-- Every folder strictly below this one satisfies `goodFolder` (the folder
itself — in particular the root — is exempt). -/
def goodDeep : FolderT → Bool
  | .mk _ _ folders => goodDeepL folders
def goodDeepL : List FolderT → Bool
  | [] => true
  | c :: cs => (goodFolder c && goodDeep c) && goodDeepL cs
end

@[simp] theorem FolderT.withFolders_files (f : FolderT) (cs : List FolderT) :
    (f.withFolders cs).files = f.files := by cases f; rfl

@[simp] theorem FolderT.withFolders_folders (f : FolderT) (cs : List FolderT) :
    (f.withFolders cs).folders = cs := by cases f; rfl

@[simp] theorem FolderT.withFolders_name (f : FolderT) (cs : List FolderT) :
    (f.withFolders cs).name = f.name := by cases f; rfl

@[simp] theorem FolderT.withFiles_files (f : FolderT) (fs : List FileT) :
    (f.withFiles fs).files = fs := by cases f; rfl

@[simp] theorem FolderT.withFiles_folders (f : FolderT) (fs : List FileT) :
    (f.withFiles fs).folders = f.folders := by cases f; rfl

@[simp] theorem FolderT.withFolders_self (f : FolderT) : f.withFolders f.folders = f := by
  cases f; rfl

@[simp] theorem FolderT.name_mk (n : String) (fs : List FileT) (cs : List FolderT) :
    (FolderT.mk n fs cs).name = n := rfl

@[simp] theorem FolderT.files_mk (n : String) (fs : List FileT) (cs : List FolderT) :
    (FolderT.mk n fs cs).files = fs := rfl

@[simp] theorem FolderT.folders_mk (n : String) (fs : List FileT) (cs : List FolderT) :
    (FolderT.mk n fs cs).folders = cs := rfl

theorem goodFolder_compactChain (f : FolderT) : goodFolder (compactChain f) = true := by
  induction f using compactChain.induct with
  | case1 name c ih => rw [compactChain]; exact ih
  | case2 f h =>
    have heq : compactChain f = f := by
      rw [compactChain.eq_def]
      split
      · exact absurd rfl (h _ _)
      · rfl
    rw [heq]
    cases f with
    | mk n fs cs =>
      rw [goodFolder]
      rcases fs with _ | ⟨f0, fs⟩
      · rcases cs with _ | ⟨c0, cs⟩
        · simp [FolderT.files, FolderT.folders]
        · rcases cs with _ | ⟨c1, cs⟩
          · exact absurd rfl (h n c0)
          · simp [FolderT.files, FolderT.folders]
      · simp [FolderT.files, FolderT.folders]

theorem compactChain_eq_of_good (f : FolderT) (h : goodFolder f = true) :
    compactChain f = f := by
  rw [compactChain.eq_def]
  split
  · next name c =>
    rw [goodFolder] at h
    simp [FolderT.files, FolderT.folders] at h
  · rfl

theorem goodFolder_withFolders (f : FolderT) (cs : List FolderT)
    (hlen : cs.length = f.folders.length) :
    goodFolder (f.withFolders cs) = goodFolder f := by
  rw [goodFolder, goodFolder]
  simp [hlen]

theorem length_compactTreeL (cs : List FolderT) :
    ∀ comp : Bool, ((compactTreeL cs comp).1.length = cs.length) := by
  induction cs with
  | nil =>
    intro comp
    cases comp <;> simp [compactTreeL]
  | cons c cs ih =>
    intro comp
    cases comp
    · simp [compactTreeL, ih]
    · simp [compactTreeL]

theorem goodFolder_compactTree_false (f : FolderT) :
    goodFolder (compactTree f false).1 = true := by
  rw [compactTree]
  show goodFolder ((compactStep f false).1.withFolders
      (compactTreeL (compactStep f false).1.folders (compactStep f false).2).1) = true
  rw [goodFolder_withFolders _ _ (length_compactTreeL _ _)]
  rw [compactStep]
  simp only [Bool.false_eq_true, if_false]
  exact goodFolder_compactChain f

theorem chainShape_eq_false_of_good (f : FolderT) (h : goodFolder f = true) :
    chainShape f = false := by
  rw [chainShape.eq_def]
  split
  · next n c =>
    rw [goodFolder] at h
    simp [FolderT.files, FolderT.folders] at h
  · rfl

/-- On a tree already satisfying the invariant everywhere (and not
chain-shaped itself, e.g. because it is the root), compaction is the identity
and reports that nothing was compacted. -/
theorem compactTree_eq_of_goodDeep (f : FolderT) (b : Bool)
    (hb : b = true ∨ goodFolder f = true) (hd : goodDeep f = true) :
    compactTree f b = (f, false) := by
  refine compactTree.induct
    (fun f b => (b = true ∨ goodFolder f = true) → goodDeep f = true →
      compactTree f b = (f, false))
    (fun cs comp => goodDeepL cs = true → comp = false →
      compactTreeL cs comp = (cs, false))
    ?_ ?_ ?_ ?_ f b hb hd
  · intro f isRoot ih hb hd
    have hstep : compactStep f isRoot = (f, false) := by
      rw [compactStep]
      rcases hb with rfl | hg
      · rw [if_pos rfl]
      · split
        · rfl
        · rw [compactChain_eq_of_good f hg, chainShape_eq_false_of_good f hg]
    have hfolders : goodDeepL f.folders = true := by
      rcases f with ⟨n, fs, cs⟩
      rw [goodDeep] at hd
      simpa [FolderT.folders] using hd
    have hl := ih (by rw [hstep]; exact hfolders) (by rw [hstep])
    rw [compactTree]
    rw [hstep] at hl ⊢
    rw [hl]
    show (f.withFolders f.folders, false) = (f, false)
    rw [FolderT.withFolders_self]
  · intro cs hg hcomp
    exact absurd hcomp (by simp)
  · intro _ _
    show compactTreeL [] false = ([], false)
    simp [compactTreeL]
  · intro c cs ih1 ih2 hdl _
    rw [goodDeepL] at hdl
    simp only [Bool.and_eq_true] at hdl
    have h1 : compactTree c false = (c, false) := ih1 (.inr hdl.1.1) hdl.1.2
    have h2 : compactTreeL cs (compactTree c false).2 = (cs, false) :=
      ih2 hdl.2 (by rw [h1])
    show compactTreeL (c :: cs) false = (c :: cs, false)
    rw [compactTreeL]
    rw [h2, h1]

/-! ## Addressing, construction and mutation of the folder tree -/

/-- The folder at a leaf-first chain of indices (`[]` is the root). -/
def getFolderRev (root : FolderT) : List Nat → Option FolderT
  | [] => some root
  | k :: rest => (getFolderRev root rest).bind (fun p => p.folders.get? k)

/-- The file at index `i` of the folder at chain `rs`. -/
def getFileAt (root : FolderT) (rs : List Nat) (i : Nat) : Option FileT :=
  (getFolderRev root rs).bind (fun f => f.files.get? i)

/-- Rebuild the tree after updating the folder at the chain with `g` (`none`
when the chain does not resolve or the update fails).  In-place mutation of a
node through its parent back-references becomes a functional rebuild along the
chain; sibling entries are untouched. -/
def modifyFolderAt (root : FolderT) (rs : List Nat) (g : FolderT → Option FolderT) :
    Option FolderT :=
  match rs with
  | [] => g root
  | k :: rest =>
    modifyFolderAt root rest (fun p =>
      match p.folders.get? k with
      | none => none
      | some c => (g c).map (fun c' => p.withFolders (p.folders.set k c')))

/-- `FolderItemImpl.delete` of the folder at `rs ++ [k]`-ish: splice it out of
its parent's `_folders`. -/
def eraseFolderAt (root : FolderT) (rs : List Nat) (k : Nat) : Option FolderT :=
  modifyFolderAt root rs (fun p =>
    if k < p.folders.length then some (p.withFolders (p.folders.eraseIdx k)) else none)

/-- Replace the file at `(rs, i)`. -/
def setFileAt (root : FolderT) (rs : List Nat) (i : Nat) (file : FileT) : Option FolderT :=
  modifyFolderAt root rs (fun p =>
    if i < p.files.length then some (p.withFiles (p.files.set i file)) else none)

/-- `FileItemImpl.delete`: splice the file at `(rs, i)` out of its parent's
`_files`. -/
def eraseFileAt (root : FolderT) (rs : List Nat) (i : Nat) : Option FolderT :=
  modifyFolderAt root rs (fun p =>
    if i < p.files.length then some (p.withFiles (p.files.eraseIdx i)) else none)

/-- `ModelImpl.cleanupFolder` and `deleteFileOrFolder` (src/model.ts lines
547-565): the folder at `rs` has just lost a child; if it is now empty and is
not the root, delete it from its parent and continue upward with the parent;
otherwise (the first non-empty ancestor, or the root) run
`compactTree(this.root)` over the whole tree.  Change events are not modelled. -/
def cleanupFolderAt (root : FolderT) : List Nat → Option FolderT
  | [] => some (compactTree root true).1
  | k :: rest =>
    match getFolderRev root (k :: rest) with
    | none => none
    | some f =>
      if f.isEmptyFolder then
        (eraseFolderAt root rest k).bind (fun root' => cleanupFolderAt root' rest)
      else some (compactTree root true).1

/-- `deleteFileOrFolder` on a file: detach it, then clean up its folder. -/
def deleteFileAt (root : FolderT) (rs : List Nat) (i : Nat) : Option FolderT :=
  (eraseFileAt root rs i).bind (fun root' => cleanupFolderAt root' rs)

/-- `deleteFileOrFolder` on a folder: detach it, then clean up its parent. -/
def deleteFolderAt (root : FolderT) (rs : List Nat) (k : Nat) : Option FolderT :=
  (eraseFolderAt root rs k).bind (fun root' => cleanupFolderAt root' rs)

/-- An argument to `ModelImpl.remove`: a node attached to the current tree
(addressed by its path) or a stale node whose `_parent` is `undefined` (for
example one that was already removed). -/
inductive NodeTarget where
  | ref (rs : List Nat) (i j : Nat)
  | file (rs : List Nat) (i : Nat)
  | folder (rs : List Nat)
  | detachedRef
  | detachedFile
  | detachedFolder
deriving DecidableEq, Repr

/-- `ModelImpl.remove` / `cleanupFile` (src/model.ts lines 536-577).  A
detached node makes `delete()` throw (`'Can't delete detached …'`, rendered
here without the apostrophe); a path that does not resolve stands for a node
attached to some other tree, whose deletion `_del` (lines 685-691) answers
with the `'Can't find the item to delete in the array'` throw.  For a
reference: detach it; if its file is now empty, delete the file and cascade
(`cleanupFile`), otherwise only a change event fires. -/
def modelRemove (root : FolderT) : NodeTarget → Except String FolderT
  | .detachedRef => .error "Cant delete detached reference"
  | .detachedFile => .error "Cant delete detached file"
  | .detachedFolder => .error "Cant delete detached folder"
  | .ref rs i j =>
    match getFileAt root rs i with
    | none => .error "Cant find the item to delete in the array"
    | some f =>
      if j < f.references.length then
        if (f.references.eraseIdx j).isEmpty then
          match deleteFileAt root rs i with
          | some r => .ok r
          | none => .error "Cant find the item to delete in the array"
        else
          match setFileAt root rs i ⟨f.uri, f.references.eraseIdx j⟩ with
          | some r => .ok r
          | none => .error "Cant find the item to delete in the array"
      else .error "Cant find the item to delete in the array"
  | .file rs i =>
    match deleteFileAt root rs i with
    | some r => .ok r
    | none => .error "Cant find the item to delete in the array"
  | .folder [] => .error "Cant delete detached folder"
  | .folder (k :: rs) =>
    match deleteFolderAt root rs k with
    | some r => .ok r
    | none => .error "Cant find the item to delete in the array"

/-- A sequence of `remove` calls (a call that throws leaves the tree as it
was). -/
def applyRemoves (root : FolderT) (ts : List NodeTarget) : FolderT :=
  ts.foldl (fun acc t => match modelRemove acc t with | .ok r => r | .error _ => acc) root

/-! ### Construction (`ModelImpl` constructor, src/model.ts lines 444-470) -/

/-- JS `string.split(sep)` for a one-character separator, computed on the
character list. -/
def jsSplitChar (sep : Char) : List Char → List String
  | [] => [""]
  | c :: cs =>
    if c = sep then "" :: jsSplitChar sep cs
    else
      match jsSplitChar sep cs with
      | [] => []
      | s :: rest => (String.mk (c :: s.toList)) :: rest

/-- JS `string.split('/')`. -/
def jsSplitSlash (s : String) : List String :=
  jsSplitChar (Char.ofNat 47) s.toList

/-- JS `string.startsWith(prefix)`. -/
def jsStartsWith (s pre : String) : Bool :=
  pre.toList.isPrefixOf s.toList

/-- JS `string.substring(n)` / the `path.substring(root.path.length)`
truncation, on characters. -/
def jsSubstringFrom (s : String) (n : Nat) : String :=
  String.mk (s.toList.drop n)

/-- `ModelImpl._getContainerComponents` (src/model.ts lines 595-612): find the
first configured root whose path prefixes the uri's path, then split the
remainder into segments; `parts.slice(1, parts.length - 2)` is kept as the
source computes it.  Multi-root workspaces prepend the root's own name. -/
def getContainerComponents (rootUris : List Uri) (u : Uri) : Option (List String) :=
  match rootUris.find? (fun fu => jsStartsWith u.path fu.path) with
  | none => none
  | some fu =>
    let pathParts := jsSplitSlash fu.path
    let name := pathParts.getLastD ""
    let truncated := jsSubstringFrom u.path fu.path.toList.length
    let parts := jsSplitSlash truncated
    let result := (parts.take (parts.length - 2)).drop 1
    if rootUris.length = 1 then some result else some (name :: result)

/-- `ModelImpl._getOrCreate` (src/model.ts lines 579-593) combined with the
subsequent `addFile`: walk (or create, appending) the folder chain named by
`path` and append the file there. -/
def getOrCreateAdd (parent : FolderT) (path : List String) (file : FileT) : FolderT :=
  match path with
  | [] => parent.withFiles (parent.files ++ [file])
  | n :: rest =>
    match parent.folders.findIdx? (fun c => c.name == n) with
    | some k =>
      parent.withFolders (parent.folders.set k
        (getOrCreateAdd ((parent.folders.get? k).getD (FolderT.mk n [] [])) rest file))
    | none =>
      parent.withFolders (parent.folders ++ [getOrCreateAdd (FolderT.mk n [] []) rest file])

/-- The `ModelImpl` constructor (src/model.ts lines 444-470): sort the
locations, group them into file runs (the `last` pointer), place each file —
under its folder chain when `showFolders` is on, skipping uris outside every
configured root (`continue`), directly under the root otherwise — and finally
`compactTree(root)`. -/
def createModel (locs : List Location) (rootUris : List Uri) (showFolders : Bool) :
    FolderT :=
  let runs := modelFlatFiles locs
  let root :=
    if showFolders then
      runs.foldl (fun acc run =>
        match getContainerComponents rootUris run.uri with
        | none => acc
        | some parts => getOrCreateAdd acc parts ⟨run.uri, run.results⟩)
        (FolderT.mk "" [] [])
    else
      FolderT.mk "" (runs.map (fun run => ⟨run.uri, run.results⟩)) []
  (compactTree root true).1

/-! ### The compaction invariant (C2) -/

theorem goodDeep_def (p : FolderT) : goodDeep p = goodDeepL p.folders := by
  cases p; rfl

theorem goodFolder_withFiles (p : FolderT) (fs : List FileT)
    (hlen : fs.isEmpty = p.files.isEmpty) : goodFolder (p.withFiles fs) = goodFolder p := by
  rw [goodFolder, goodFolder]
  simp [hlen]

theorem goodDeep_withFiles (p : FolderT) (fs : List FileT) :
    goodDeep (p.withFiles fs) = goodDeep p := by
  rw [goodDeep_def, goodDeep_def]
  simp

theorem isEmpty_set {α : Type} (l : List α) (i : Nat) (x : α) :
    (l.set i x).isEmpty = l.isEmpty := by
  cases l with
  | nil => rfl
  | cons a as => cases i <;> rfl

theorem goodDeepL_get (cs : List FolderT) (k : Nat) (c : FolderT)
    (hd : goodDeepL cs = true) (hc : cs.get? k = some c) :
    goodFolder c = true ∧ goodDeep c = true := by
  induction cs generalizing k with
  | nil => cases hc
  | cons a as ih =>
    rw [goodDeepL] at hd
    simp only [Bool.and_eq_true] at hd
    cases k with
    | zero =>
      rw [List.get?_cons_zero] at hc
      injection hc with hc
      subst hc
      exact hd.1
    | succ k =>
      rw [List.get?_cons_succ] at hc
      exact ih k hd.2 hc

theorem goodDeepL_set (cs : List FolderT) (k : Nat) (c' : FolderT)
    (hd : goodDeepL cs = true) (hgf : goodFolder c' = true) (hgd : goodDeep c' = true) :
    goodDeepL (cs.set k c') = true := by
  induction cs generalizing k with
  | nil => rw [List.set_nil]; exact hd
  | cons a as ih =>
    rw [goodDeepL] at hd
    simp only [Bool.and_eq_true] at hd
    cases k with
    | zero =>
      rw [List.set_cons_zero, goodDeepL]
      rw [hgf, hgd]
      simp [hd.2]
    | succ k =>
      rw [List.set_cons_succ, goodDeepL]
      rw [ih k hd.2]
      simp [hd.1.1, hd.1.2]

theorem goodDeep_modifyFolderAt (rs : List Nat) :
    ∀ (root root' : FolderT) (g : FolderT → Option FolderT),
      (∀ p p', g p = some p' → goodFolder p' = goodFolder p ∧
        (goodDeep p = true → goodDeep p' = true)) →
      modifyFolderAt root rs g = some root' →
      goodDeep root = true → goodDeep root' = true := by
  induction rs with
  | nil =>
    intro root root' g hg hm hd
    exact (hg root root' hm).2 hd
  | cons k rest ih =>
    intro root root' g hg hm hd
    rw [modifyFolderAt] at hm
    refine ih root root' _ ?_ hm hd
    intro p p' hpp
    split at hpp
    · cases hpp
    · next c hc =>
      cases hgc : g c with
      | none => rw [hgc] at hpp; cases hpp
      | some c' =>
        rw [hgc] at hpp
        simp only [Option.map_some'] at hpp
        injection hpp with hpp
        obtain ⟨hgf, hgd⟩ := hg c c' hgc
        have hlen : (p.folders.set k c').length = p.folders.length := by simp
        constructor
        · rw [← hpp]
          exact goodFolder_withFolders p _ hlen
        · intro hdp
          rw [← hpp]
          rw [goodDeep_def] at hdp ⊢
          rw [FolderT.withFolders_folders]
          obtain ⟨hcf, hcd⟩ := goodDeepL_get p.folders k c hdp hc
          exact goodDeepL_set p.folders k c' hdp (hgf ▸ hcf) (hgd hcd)

/-- The single configured workspace root `/ws`. -/
def wsRoots : List Uri := [⟨"file:///ws", "/ws", ""⟩]

/-- Two locations whose files sit at the bottom of two parallel compactible
folder chains (`a → b` and `x → y`). -/
def c2bugLocs : List Location :=
  [⟨⟨"file:///ws/a/b/c/f.ts", "/ws/a/b/c/f.ts", ""⟩, ⟨⟨1, 0⟩, ⟨1, 1⟩⟩⟩,
   ⟨⟨"file:///ws/x/y/z/g.ts", "/ws/x/y/z/g.ts", ""⟩, ⟨⟨2, 0⟩, ⟨2, 1⟩⟩⟩]

/-- The tree the placement loop builds for `c2bugLocs` before compaction. -/
def c2preRoot : FolderT :=
  .mk ""
    []
    [.mk "a" []
      [.mk "b" [⟨⟨"file:///ws/a/b/c/f.ts", "/ws/a/b/c/f.ts", ""⟩,
        [⟨⟨"file:///ws/a/b/c/f.ts", "/ws/a/b/c/f.ts", ""⟩, ⟨⟨1, 0⟩, ⟨1, 1⟩⟩⟩]⟩] []],
     .mk "x" []
      [.mk "y" [⟨⟨"file:///ws/x/y/z/g.ts", "/ws/x/y/z/g.ts", ""⟩,
        [⟨⟨"file:///ws/x/y/z/g.ts", "/ws/x/y/z/g.ts", ""⟩, ⟨⟨2, 0⟩, ⟨2, 1⟩⟩⟩]⟩] []]]

/-- What the constructor actually returns for `c2bugLocs`: the first chain is
merged into `a/b`, but the second survives un-compacted. -/
def c2tree : FolderT :=
  .mk ""
    []
    [.mk "a/b" [⟨⟨"file:///ws/a/b/c/f.ts", "/ws/a/b/c/f.ts", ""⟩,
        [⟨⟨"file:///ws/a/b/c/f.ts", "/ws/a/b/c/f.ts", ""⟩, ⟨⟨1, 0⟩, ⟨1, 1⟩⟩⟩]⟩] [],
     .mk "x" []
      [.mk "y" [⟨⟨"file:///ws/x/y/z/g.ts", "/ws/x/y/z/g.ts", ""⟩,
        [⟨⟨"file:///ws/x/y/z/g.ts", "/ws/x/y/z/g.ts", ""⟩, ⟨⟨2, 0⟩, ⟨2, 1⟩⟩⟩]⟩] []]]

/-- C2: the claimed invariant — after construction in folder-grouping mode no
reachable non-root folder has zero files and exactly one child folder — is
FALSE of the program.  `compactTree` writes
`compacted = compacted || this.compactTree(child)`, and `||` short-circuits:
once the chain `a → b` has been merged, the sibling chain `x → y` is never
visited, so the freshly constructed model contains the folder `x` with zero
files and exactly one subfolder `y`. -/
theorem compaction_shortcircuit_bug :
    goodDeep (createModel c2bugLocs wsRoots true) = false
    ∧ (getFolderRev (createModel c2bugLocs wsRoots true) [1]).map
        (fun x => (x.name, x.files.length, x.folders.map FolderT.name))
      = some ("x", 0, ["y"]) := by
  have hpre : createModel c2bugLocs wsRoots true = (compactTree c2preRoot true).1 :=
    congrArg (fun r => (compactTree r true).1)
      (by decide :
        (modelFlatFiles c2bugLocs).foldl (fun acc run =>
          match getContainerComponents wsRoots run.uri with
          | none => acc
          | some parts => getOrCreateAdd acc parts ⟨run.uri, run.results⟩)
          (FolderT.mk "" [] []) = c2preRoot)
  have hc : (compactTree c2preRoot true).1 = c2tree := by
    simp [c2preRoot, c2tree, compactTree, compactTreeL, compactStep, compactChain,
      chainShape, FolderT.withFolders, FolderT.withFiles, FolderT.withName]
  rw [hpre, hc]
  exact ⟨by decide, by decide⟩

/-! ### Navigation over the folder tree (src/model.ts lines 116-199, 278-345,
361-436)

The getters `firstFile`, `lastFile`, `firstFolder`, `lastFolder`,
`nextFile`/`prevFile`, `next`/`prev` and `ReferenceItemImpl.next`/`prev`,
with nodes addressed by leaf-first chains as above. -/

/-- `FolderItemImpl.firstFile`: descend into the first child folder, else the
first own file. -/
def firstFileV : FolderT → Option FileT
  | .mk _ files [] => files.head?
  | .mk _ _ (c :: _) => firstFileV c

mutual
/-- `FolderItemImpl.lastFile`: the last own file, else the last child
folder's `lastFile`. -/
def lastFileV : FolderT → Option FileT
  | .mk _ files folders => if files.isEmpty then lastFileL folders else files.getLast?
def lastFileL : List FolderT → Option FileT
  | [] => none
  | [c] => lastFileV c
  | _ :: cs => lastFileL cs
end

/-- `FolderItemImpl.firstFolder`: the first child folder, else the folder
itself. -/
def firstFolderV (f : FolderT) : FolderT :=
  match f.folders with
  | c :: _ => c
  | [] => f

/-- `FolderItemImpl.lastFolder`. -/
def lastFolderV (f : FolderT) : FolderT :=
  match f.folders.getLast? with
  | some c => c
  | none => f

/-- `FolderItemImpl.nextFile` for the folder at the chain: next sibling's
`firstFolder.firstFile`; else the parent's first own file; else the parent's
`nextFile` (`none` at the root, whose `_parent` is `undefined`). -/
def folderNextFileP (root : FolderT) : List Nat → Option FileT
  | [] => none
  | k :: rest =>
    match getFolderRev root rest with
    | none => none
    | some parent =>
      match parent.folders.get? (k + 1) with
      | some sib => firstFileV (firstFolderV sib)
      | none =>
        if parent.files.isEmpty then folderNextFileP root rest
        else parent.files.head?

/-- `FolderItemImpl.prevFile`: previous sibling's `lastFolder.lastFile`; else
the parent's `prevFile`. -/
def folderPrevFileP (root : FolderT) : List Nat → Option FileT
  | [] => none
  | k :: rest =>
    match getFolderRev root rest with
    | none => none
    | some parent =>
      if k = 0 then folderPrevFileP root rest
      else
        match parent.folders.get? (k - 1) with
        | some sib => lastFileV (lastFolderV sib)
        | none => none

/-- `FileItemImpl.next`: the next sibling file, else the folder's `nextFile`. -/
def fileNextP (root : FolderT) (rs : List Nat) (i : Nat) : Option FileT :=
  match getFolderRev root rs with
  | none => none
  | some parent =>
    match parent.files.get? (i + 1) with
    | some sib => some sib
    | none => folderNextFileP root rs

/-- `FileItemImpl.prev`: the previous sibling file, else the last child
folder's `lastFile`, else the folder's `prevFile`. -/
def filePrevP (root : FolderT) (rs : List Nat) (i : Nat) : Option FileT :=
  match getFolderRev root rs with
  | none => none
  | some parent =>
    if i = 0 then
      match parent.folders.getLast? with
      | some lastF => lastFileV lastF
      | none => folderPrevFileP root rs
    else parent.files.get? (i - 1)

/-- `ReferenceItemImpl.next` (src/model.ts lines 385-399): the next sibling
reference, else the next file's `firstRef`. -/
def refNextP (root : FolderT) (rs : List Nat) (i j : Nat) : Option Location :=
  match getFileAt root rs i with
  | none => none
  | some f =>
    match f.references.get? (j + 1) with
    | some r => some r
    | none =>
      match fileNextP root rs i with
      | none => none
      | some nf => nf.references.head?

/-- `ReferenceItemImpl.prev` (src/model.ts lines 401-415): the previous
sibling reference, else the previous file's `lastRef`. -/
def refPrevP (root : FolderT) (rs : List Nat) (i j : Nat) : Option Location :=
  match getFileAt root rs i with
  | none => none
  | some f =>
    if j = 0 then
      match filePrevP root rs i with
      | none => none
      | some pf => pf.references.getLast?
    else f.references.get? (j - 1)

/-- The position (root-first chain, file index) of the tree's first file in
presentation order (folders before files), mirroring `firstFile`. -/
def firstFilePathAux : FolderT → Option (List Nat × Nat)
  | .mk _ files [] => if files.isEmpty then none else some ([], 0)
  | .mk _ _ (c :: _) => (firstFilePathAux c).map (fun p => (0 :: p.1, p.2))

/-- The position (root-first chain, file index) of the tree's last file in
presentation order, mirroring `lastFile`: the last own file when there is one,
else inside the last child folder. -/
def lastFilePathAux (f : FolderT) : Option (List Nat × Nat) :=
  if f.files.isEmpty then
    match hc : f.folders.getLast? with
    | none => none
    | some c => (lastFilePathAux c).map (fun p => ((f.folders.length - 1) :: p.1, p.2))
  else some ([], f.files.length - 1)
termination_by folderCount f
decreasing_by
  exact folderCount_child_lt c f (List.mem_of_mem_getLast? hc)

theorem lastFilePathAux_inv (f : FolderT) (is : List Nat) (i : Nat)
    (h : lastFilePathAux f = some (is, i)) :
    (is = [] ∧ f.files ≠ [] ∧ i = f.files.length - 1)
    ∨ (∃ k is' c, is = k :: is' ∧ f.files = [] ∧ k = f.folders.length - 1
        ∧ f.folders.get? k = some c ∧ lastFilePathAux c = some (is', i)) := by
  rcases f with ⟨n, files, folders⟩
  rw [lastFilePathAux] at h
  simp only [FolderT.files_mk, FolderT.folders_mk] at h ⊢
  by_cases hfe : files.isEmpty
  · rw [if_pos hfe] at h
    split at h
    · cases h
    · next c hc =>
      cases ha : lastFilePathAux c with
      | none => rw [ha] at h; cases h
      | some p =>
        rw [ha] at h
        simp only [Option.map_some'] at h
        injection h with h
        rcases p with ⟨pis, pi⟩
        injection h with h1 h2
        right
        simp only at h1 h2
        refine ⟨folders.length - 1, pis, c, by rw [← h1], by simpa using hfe,
          rfl, ?_, ?_⟩
        · rw [List.get?_eq_getElem?, ← List.getLast?_eq_getElem?]
          exact hc
        · rw [ha, h2]
  · rw [if_neg hfe] at h
    injection h with h
    injection h with h1 h2
    left
    exact ⟨h1.symm, by simpa using hfe, by omega⟩


theorem firstFilePathAux_inv (f : FolderT) (is : List Nat) (i : Nat)
    (h : firstFilePathAux f = some (is, i)) :
    (is = [] ∧ f.folders = [] ∧ f.files ≠ [] ∧ i = 0)
    ∨ (∃ is' c cs, is = 0 :: is' ∧ f.folders = c :: cs
        ∧ firstFilePathAux c = some (is', i)) := by
  rcases f with ⟨n, files, folders⟩
  cases folders with
  | nil =>
    rw [firstFilePathAux] at h
    by_cases hfe : files.isEmpty
    · rw [if_pos hfe] at h; cases h
    · rw [if_neg hfe] at h
      injection h with h
      injection h with h1 h2
      exact .inl ⟨h1.symm, rfl, by simpa using hfe, h2.symm⟩
  | cons c cs =>
    rw [firstFilePathAux] at h
    cases ha : firstFilePathAux c with
    | none => rw [ha] at h; cases h
    | some p =>
      rw [ha] at h
      simp only [Option.map_some'] at h
      injection h with h
      rcases p with ⟨pis, pi⟩
      injection h with h1 h2
      simp only at h1 h2
      exact .inr ⟨pis, c, cs, h1.symm, rfl, by rw [ha, h2]⟩

theorem refNext_none_of_lastPath (is : List Nat) :
    ∀ (f root : FolderT) (rs : List Nat) (i : Nat),
      lastFilePathAux f = some (is, i) →
      getFolderRev root rs = some f →
      folderNextFileP root rs = none →
      ∀ (file : FileT), getFileAt root (is.reverse ++ rs) i = some file →
        refNextP root (is.reverse ++ rs) i (file.references.length - 1) = none := by
  induction is with
  | nil =>
    intro f root rs i hpath hres hnext file hfile
    rcases lastFilePathAux_inv f [] i hpath with ⟨_, hne, hi⟩ | ⟨k, is', c, hcons, _⟩
    · simp only [List.reverse_nil, List.nil_append] at hfile ⊢
      have hget : file.references.get? (file.references.length - 1 + 1) = none := by
        rw [List.get?_eq_none]
        omega
      have hfnext : fileNextP root rs i = none := by
        have hfl : 0 < f.files.length := List.length_pos.mpr hne
        have hnone : f.files.get? (i + 1) = none := by
          rw [List.get?_eq_none]
          omega
        simp only [fileNextP, hres, hnone, hnext]
      simp only [refNextP, hfile, hget, hfnext]
    · cases hcons
  | cons k is' ih =>
    intro f root rs i hpath hres hnext file hfile
    rcases lastFilePathAux_inv f (k :: is') i hpath with ⟨hnil, _, _⟩ |
      ⟨k1, is1, c, hcons, hfe, hk, hc, haux⟩
    · cases hnil
    · injection hcons with hk1 his1
      subst hk1 his1
      have hchain : (k :: is').reverse ++ rs = is'.reverse ++ (k :: rs) := by
        rw [List.reverse_cons, List.append_assoc, List.singleton_append]
      rw [hchain] at hfile ⊢
      refine ih c root (k :: rs) i haux ?_ ?_ file hfile
      · rw [getFolderRev, hres, Option.some_bind]
        exact hc
      · have hklen : k < f.folders.length := (List.get?_eq_some.mp hc).1
        have hnone : f.folders.get? (k + 1) = none := by
          rw [List.get?_eq_none]
          omega
        have hfe' : f.files.isEmpty = true := by rw [hfe]; rfl
        simp only [folderNextFileP, hres, hnone]
        rw [if_pos hfe']
        exact hnext

theorem refPrev_none_of_firstPath (is : List Nat) :
    ∀ (f root : FolderT) (rs : List Nat) (i : Nat),
      firstFilePathAux f = some (is, i) →
      getFolderRev root rs = some f →
      folderPrevFileP root rs = none →
      refPrevP root (is.reverse ++ rs) i 0 = none := by
  induction is with
  | nil =>
    intro f root rs i hpath hres hprev
    rcases firstFilePathAux_inv f [] i hpath with ⟨_, hfolders, _, hi⟩ | ⟨is', c, cs, hcons, _⟩
    · subst hi
      simp only [List.reverse_nil, List.nil_append]
      have hfprev : filePrevP root rs 0 = none := by
        simp only [filePrevP, hres, hfolders, List.getLast?_nil, if_pos]
        exact hprev
      cases hfile : getFileAt root rs 0 with
      | none => simp only [refPrevP, hfile]
      | some file => simp only [refPrevP, hfile, hfprev, if_pos]
    · cases hcons
  | cons k is' ih =>
    intro f root rs i hpath hres hprev
    rcases firstFilePathAux_inv f (k :: is') i hpath with ⟨hnil, _, _, _⟩ |
      ⟨is1, c, cs, hcons, hfolders, haux⟩
    · cases hnil
    · injection hcons with hk1 his1
      subst hk1 his1
      have hchain : ((0 : Nat) :: is').reverse ++ rs = is'.reverse ++ (0 :: rs) := by
        rw [List.reverse_cons, List.append_assoc, List.singleton_append]
      rw [hchain]
      refine ih c root (0 :: rs) i haux ?_ ?_
      · rw [getFolderRev, hres, Option.some_bind, hfolders]
        rfl
      · simp only [folderPrevFileP, hres, if_pos]
        exact hprev

/-! ### `ReferencesModel.move` (src/models.ts lines 246-273)

The flat model's navigation: `_move` advances to the adjacent `FileItem`
*modulo the item list* (`(items.indexOf(item) + delta + items.length) %
items.length`), so stepping past the last reference wraps around to the first
file — unlike the src/model.ts navigation above, which stops with `undefined`.
A reference is addressed by (file index, reference index); `indexOf` of an
attached node is its index. -/

def referencesMoveFile (items : List FileItemE) (i : Nat) (delta : Int) :
    Option FileItemE :=
  if items.length = 0 then none
  else items.get? ((((i : Int) + delta + items.length) % items.length).toNat)

/-- `ReferencesModel.move` for a `ReferenceItem`: step within the file's
`results`, overflowing into the first result of the next file and underflowing
into the last result of the previous file, with `_move` wrapping modulo the
file list. -/
def referencesMove (items : List FileItemE) (i j : Nat) (fwd : Bool) : Option Location :=
  match items.get? i with
  | none => none
  | some file =>
    if ((j : Int) + (if fwd then 1 else -1)) < 0 then
      (referencesMoveFile items i (if fwd then 1 else -1)).bind (fun f => f.results.getLast?)
    else if (file.results.length : Int) ≤ (j : Int) + (if fwd then 1 else -1) then
      (referencesMoveFile items i (if fwd then 1 else -1)).bind (fun f => f.results.head?)
    else file.results.get? ((j : Int) + (if fwd then 1 else -1)).toNat

/-- `ReferencesModel.move` for a `FileItem`: first result of the next file /
last result of the previous file, wrapping modulo the file list. -/
def referencesMoveFromFile (items : List FileItemE) (i : Nat) (fwd : Bool) :
    Option Location :=
  match items.get? i with
  | none => none
  | some _ =>
    if fwd then (referencesMoveFile items i 1).bind (fun f => f.results.head?)
    else (referencesMoveFile items i (-1)).bind (fun f => f.results.getLast?)

theorem referencesMoveFile_fwd (items : List FileItemE) (i : Nat)
    (hn : 0 < items.length) :
    referencesMoveFile items i 1 = items.get? ((i + 1) % items.length) := by
  rw [referencesMoveFile, if_neg (by omega)]
  congr 1
  have h1 : ((i : Int) + 1 + (items.length : Int)) % (items.length : Int)
      = ((i : Int) + 1) % (items.length : Int) := by
    conv_lhs => rw [show ((i : Int) + 1 + (items.length : Int)) =
      ((i : Int) + 1) + (items.length : Int) * 1 by ring]
    exact Int.add_mul_emod_self_left _ _ _
  rw [h1]
  have h2 : ((i : Int) + 1) % (items.length : Int) = (((i + 1) % items.length : Nat) : Int) := by
    push_cast
    rfl
  rw [h2]
  exact Int.toNat_natCast _

theorem referencesMoveFile_bwd (items : List FileItemE) (i : Nat)
    (hn : 0 < items.length) :
    referencesMoveFile items i (-1) = items.get? ((i + items.length - 1) % items.length) := by
  rw [referencesMoveFile, if_neg (by omega)]
  congr 1
  have h1 : ((i : Int) + -1 + (items.length : Int)) = (((i + items.length - 1 : Nat)) : Int) := by
    omega
  rw [h1]
  have h2 : (((i + items.length - 1 : Nat)) : Int) % (items.length : Int)
      = (((i + items.length - 1) % items.length : Nat) : Int) := by
    rfl
  rw [h2]
  exact Int.toNat_natCast _

theorem referencesMove_moduloWrap (items : List FileItemE) (i j : Nat)
    (file : FileItemE) (hi : items.get? i = some file) (hj : j < file.results.length) :
    (j + 1 < file.results.length →
      referencesMove items i j true = file.results.get? (j + 1))
    ∧ (j + 1 = file.results.length →
      referencesMove items i j true =
        (items.get? ((i + 1) % items.length)).bind (fun f => f.results.head?))
    ∧ (0 < j → referencesMove items i j false = file.results.get? (j - 1))
    ∧ (j = 0 →
      referencesMove items i j false =
        (items.get? ((i + items.length - 1) % items.length)).bind
          (fun f => f.results.getLast?)) := by
  have hn : 0 < items.length := by
    have := (List.get?_eq_some.mp hi).1
    omega
  refine ⟨?_, ?_, ?_, ?_⟩
  · intro hlt
    simp only [referencesMove, hi, if_true]
    rw [if_neg (by omega), if_neg (by omega)]
    have ht : ((j : Int) + 1).toNat = j + 1 := by omega
    rw [ht]
  · intro heq
    simp only [referencesMove, hi, if_true]
    rw [if_neg (by omega), if_pos (by omega)]
    rw [referencesMoveFile_fwd items i hn]
  · intro hpos
    simp only [referencesMove, hi, Bool.false_eq_true, if_false]
    rw [if_neg (by omega), if_neg (by omega)]
    have ht : ((j : Int) + -1).toNat = j - 1 := by omega
    rw [ht]
  · intro hz
    subst hz
    simp only [referencesMove, hi, Bool.false_eq_true, if_false]
    rw [if_pos (by omega)]
    rw [referencesMoveFile_bwd items i hn]

/-- C3, counterexample to the claim as stated: in `ReferencesModel.move`
(src/models.ts), stepping forward from the last leaf of the last top-level
item does not return undefined — `_move` wraps modulo the item list and yields
the first file's first reference; symmetrically stepping backward from the
first leaf wraps to the last file's last reference. -/
theorem move_wraps_counterexample :
    referencesMove
        [⟨⟨"file:///a.ts", "/a.ts", ""⟩, [⟨⟨"file:///a.ts", "/a.ts", ""⟩, ⟨⟨1, 0⟩, ⟨1, 1⟩⟩⟩]⟩,
         ⟨⟨"file:///b.ts", "/b.ts", ""⟩, [⟨⟨"file:///b.ts", "/b.ts", ""⟩, ⟨⟨2, 0⟩, ⟨2, 1⟩⟩⟩]⟩]
        1 0 true = some ⟨⟨"file:///a.ts", "/a.ts", ""⟩, ⟨⟨1, 0⟩, ⟨1, 1⟩⟩⟩
    ∧ referencesMove
        [⟨⟨"file:///a.ts", "/a.ts", ""⟩, [⟨⟨"file:///a.ts", "/a.ts", ""⟩, ⟨⟨1, 0⟩, ⟨1, 1⟩⟩⟩]⟩,
         ⟨⟨"file:///b.ts", "/b.ts", ""⟩, [⟨⟨"file:///b.ts", "/b.ts", ""⟩, ⟨⟨2, 0⟩, ⟨2, 1⟩⟩⟩]⟩]
        0 0 false = some ⟨⟨"file:///b.ts", "/b.ts", ""⟩, ⟨⟨2, 0⟩, ⟨2, 1⟩⟩⟩ := by
  constructor
  · decide
  · decide

/-- C3 (amended): the two implementations disagree at the top-level boundary.
In `ReferencesModel.move` (src/models.ts) stepping is characterised by: within
a file it moves to the adjacent reference, and at a file's boundary it moves to
the first/last reference of the adjacent file *modulo the item list* — i.e. it
wraps within the parent (top-level) child list and hence never stops at the
global boundary.  In the src/model.ts navigation (`ReferenceItemImpl.next` /
`prev`), stepping forward from the tree's last leaf returns `undefined`, and
stepping backward from the tree's first leaf returns `undefined`: no wrapping
at the root. -/
theorem navigation_boundary_policy :
    (∀ (items : List FileItemE) (i j : Nat) (file : FileItemE),
      items.get? i = some file → j < file.results.length →
      ((j + 1 < file.results.length →
          referencesMove items i j true = file.results.get? (j + 1))
        ∧ (j + 1 = file.results.length →
          referencesMove items i j true =
            (items.get? ((i + 1) % items.length)).bind (fun f => f.results.head?))
        ∧ (0 < j → referencesMove items i j false = file.results.get? (j - 1))
        ∧ (j = 0 →
          referencesMove items i j false =
            (items.get? ((i + items.length - 1) % items.length)).bind
              (fun f => f.results.getLast?))))
    ∧ (∀ (root : FolderT) (is : List Nat) (i : Nat) (file : FileT),
        lastFilePathAux root = some (is, i) →
        getFileAt root is.reverse i = some file →
        refNextP root is.reverse i (file.references.length - 1) = none)
    ∧ (∀ (root : FolderT) (is : List Nat) (i : Nat),
        firstFilePathAux root = some (is, i) →
        refPrevP root is.reverse i 0 = none) := by
  refine ⟨?_, ?_, ?_⟩
  · intro items i j file hi hj
    exact referencesMove_moduloWrap items i j file hi hj
  · intro root is i file hpath hfile
    have h := refNext_none_of_lastPath is root root [] i hpath rfl rfl file
      (by rwa [List.append_nil])
    rwa [List.append_nil] at h
  · intro root is i hpath
    have h := refPrev_none_of_firstPath is root root [] i hpath rfl rfl
    rwa [List.append_nil] at h

/-- The tree used to witness `navigation_boundary_policy`: a root with two
files of one reference each. -/
def navTree : FolderT :=
  .mk ""
    [⟨⟨"file:///a.ts", "/a.ts", ""⟩, [⟨⟨"file:///a.ts", "/a.ts", ""⟩, ⟨⟨1, 0⟩, ⟨1, 1⟩⟩⟩]⟩,
     ⟨⟨"file:///b.ts", "/b.ts", ""⟩, [⟨⟨"file:///b.ts", "/b.ts", ""⟩, ⟨⟨2, 0⟩, ⟨2, 1⟩⟩⟩]⟩]
    []

/-- Witness for `navigation_boundary_policy`: the wrap equation at the last
leaf of a two-file flat model, and the `undefined` results at both boundaries
of `navTree`. -/
theorem navigation_boundary_policy_witness :
    (([⟨⟨"file:///a.ts", "/a.ts", ""⟩, [⟨⟨"file:///a.ts", "/a.ts", ""⟩, ⟨⟨1, 0⟩, ⟨1, 1⟩⟩⟩]⟩,
       ⟨⟨"file:///b.ts", "/b.ts", ""⟩, [⟨⟨"file:///b.ts", "/b.ts", ""⟩, ⟨⟨2, 0⟩, ⟨2, 1⟩⟩⟩]⟩]
        : List FileItemE).get? 1 =
      some ⟨⟨"file:///b.ts", "/b.ts", ""⟩, [⟨⟨"file:///b.ts", "/b.ts", ""⟩, ⟨⟨2, 0⟩, ⟨2, 1⟩⟩⟩]⟩)
    ∧ lastFilePathAux navTree = some ([], 1)
    ∧ firstFilePathAux navTree = some ([], 0)
    ∧ refNextP navTree [] 1 0 = none
    ∧ refPrevP navTree [] 0 0 = none := by
  refine ⟨by decide, ?_, ?_, ?_, ?_⟩
  · simp [navTree, lastFilePathAux]
  · simp [navTree, firstFilePathAux]
  · exact navigation_boundary_policy.2.1 navTree [] 1
      ⟨⟨"file:///b.ts", "/b.ts", ""⟩, [⟨⟨"file:///b.ts", "/b.ts", ""⟩, ⟨⟨2, 0⟩, ⟨2, 1⟩⟩⟩]⟩
      (by simp [navTree, lastFilePathAux]) (by decide)
  · exact navigation_boundary_policy.2.2 navTree [] 0
      (by simp [navTree, firstFilePathAux])

/-! ### `ModelImpl.first` and `ModelImpl.allFiles` (src/model.ts lines 498-534) -/

mutual
/-- `ModelImpl._allFilesIn`: child folders first (recursively), then the own
files. -/
def allFilesList : FolderT → List FileT
  | .mk _ files folders => allFilesL folders ++ files
def allFilesL : List FolderT → List FileT
  | [] => []
  | c :: cs => allFilesList c ++ allFilesL cs
end

/-- `ModelImpl.first` (src/model.ts lines 522-534): find the anchor's file and
return a reference whose range contains the anchor position — with no fallback:
when no reference contains the position, the result is `undefined`. -/
def modelFirst (root : FolderT) (u : Uri) (pos : Pos) : Option Location :=
  match (allFilesList root).find? (fun f => f.uri.toStr == u.toStr) with
  | some f => f.references.find? (fun r => r.range.containsPos pos)
  | none => none

/-- C4, counterexample to the claim as stated: `ModelImpl.first` has no
"first reference ending after the anchor / last reference" fallback.  The
anchor's file exists and has a reference (ending before the anchor position),
so the claim demands the last reference; the code returns `undefined`. -/
theorem modelFirst_no_fallback_counterexample :
    modelFirst
        (.mk "" [⟨⟨"file:///a.ts", "/a.ts", ""⟩,
          [⟨⟨"file:///a.ts", "/a.ts", ""⟩, ⟨⟨0, 0⟩, ⟨0, 1⟩⟩⟩]⟩] [])
        ⟨"file:///a.ts", "/a.ts", ""⟩ ⟨5, 0⟩ = none
    ∧ (allFilesList (.mk "" [⟨⟨"file:///a.ts", "/a.ts", ""⟩,
          [⟨⟨"file:///a.ts", "/a.ts", ""⟩, ⟨⟨0, 0⟩, ⟨0, 1⟩⟩⟩]⟩] [])).find?
        (fun f => f.uri.toStr == (⟨"file:///a.ts", "/a.ts", ""⟩ : Uri).toStr) =
      some ⟨⟨"file:///a.ts", "/a.ts", ""⟩, [⟨⟨"file:///a.ts", "/a.ts", ""⟩, ⟨⟨0, 0⟩, ⟨0, 1⟩⟩⟩]⟩ := by
  constructor
  · simp only [modelFirst, allFilesList, allFilesL]
    decide
  · simp only [allFilesList, allFilesL]
    decide

/-- C4 (amended): `ReferencesModel.first` (src/models.ts) implements the full
three-step rule for the anchor's file — a reference containing the anchor
position, else the first reference ending after it, else the file's last
reference; `ModelImpl.first` (src/model.ts) implements only the containment
step and returns `undefined` when no reference of the anchor's file contains
the position. -/
theorem first_anchor_semantics :
    (∀ (pre post : List FileItemE) (item : FileItemE) (u : Uri) (pos : Pos),
      (∀ x ∈ pre, x.uri.toStr ≠ u.toStr) →
      item.uri.toStr = u.toStr →
      item.results ≠ [] →
      referencesFirst (pre ++ item :: post) u pos =
        match item.results.find? (fun r => r.range.containsPos pos) with
        | some r => some r
        | none =>
          match item.results.find? (fun r => r.range.stop.isAfter pos) with
          | some r => some r
          | none => item.results.getLast?)
    ∧ (∀ (root : FolderT) (u : Uri) (pos : Pos) (f : FileT),
        (allFilesList root).find? (fun f => f.uri.toStr == u.toStr) = some f →
        f.references.find? (fun r => r.range.containsPos pos) = none →
        modelFirst root u pos = none) := by
  constructor
  · intro pre post item u pos hpre hmatch hne
    exact referencesFirst_anchor_cases pre post item u pos hpre hmatch hne
  · intro root u pos f hfind hnone
    simp only [modelFirst, hfind, hnone]

/-- Witness for `first_anchor_semantics` at the spec's P6 input: `docA` has
references at lines 1 and 5, `docB` at line 1, and the anchor sits at
`(docA, line 3)`; the rule selects the line-5 reference (the first whose range
ends after the anchor). -/
theorem first_anchor_semantics_witness :
    ((∀ x ∈ ([] : List FileItemE), x.uri.toStr ≠ (⟨"file:///docA", "/docA", ""⟩ : Uri).toStr)
      ∧ (⟨⟨"file:///docA", "/docA", ""⟩,
          [⟨⟨"file:///docA", "/docA", ""⟩, ⟨⟨1, 0⟩, ⟨1, 1⟩⟩⟩,
           ⟨⟨"file:///docA", "/docA", ""⟩, ⟨⟨5, 0⟩, ⟨5, 1⟩⟩⟩]⟩ : FileItemE).uri.toStr =
        (⟨"file:///docA", "/docA", ""⟩ : Uri).toStr)
    ∧ referencesFirst
        [⟨⟨"file:///docA", "/docA", ""⟩,
          [⟨⟨"file:///docA", "/docA", ""⟩, ⟨⟨1, 0⟩, ⟨1, 1⟩⟩⟩,
           ⟨⟨"file:///docA", "/docA", ""⟩, ⟨⟨5, 0⟩, ⟨5, 1⟩⟩⟩]⟩,
         ⟨⟨"file:///docB", "/docB", ""⟩, [⟨⟨"file:///docB", "/docB", ""⟩, ⟨⟨1, 0⟩, ⟨1, 1⟩⟩⟩]⟩]
        ⟨"file:///docA", "/docA", ""⟩ ⟨3, 0⟩ =
      some ⟨⟨"file:///docA", "/docA", ""⟩, ⟨⟨5, 0⟩, ⟨5, 1⟩⟩⟩ := by
  refine ⟨⟨by decide, by decide⟩, ?_⟩
  have h := first_anchor_semantics.1 []
    [⟨⟨"file:///docB", "/docB", ""⟩, [⟨⟨"file:///docB", "/docB", ""⟩, ⟨⟨1, 0⟩, ⟨1, 1⟩⟩⟩]⟩]
    ⟨⟨"file:///docA", "/docA", ""⟩,
      [⟨⟨"file:///docA", "/docA", ""⟩, ⟨⟨1, 0⟩, ⟨1, 1⟩⟩⟩,
       ⟨⟨"file:///docA", "/docA", ""⟩, ⟨⟨5, 0⟩, ⟨5, 1⟩⟩⟩]⟩
    ⟨"file:///docA", "/docA", ""⟩ ⟨3, 0⟩ (by decide) (by decide) (by decide)
  rw [List.nil_append] at h
  rw [h]
  decide

/-! ### Removing nodes that are not part of the session (C8) -/

/-- The spec's upward walk: if the folder at the chain is now empty and is not
the root, delete it and continue with its parent; stop at the first non-empty
ancestor or at the root. -/
def pruneUp (root : FolderT) : List Nat → Option FolderT
  | [] => some root
  | k :: rest =>
    match getFolderRev root (k :: rest) with
    | none => none
    | some f =>
      if f.isEmptyFolder then
        (eraseFolderAt root rest k).bind (fun root' => pruneUp root' rest)
      else some root

/-- The spec's `remove(node)`: detach the node, then prune empty non-root
ancestors upward. -/
def specRemove (root : FolderT) : NodeTarget → Option FolderT
  | .ref rs i j =>
    match getFileAt root rs i with
    | none => none
    | some f =>
      if j < f.references.length then
        if (f.references.eraseIdx j).isEmpty then
          (eraseFileAt root rs i).bind (fun root' => pruneUp root' rs)
        else setFileAt root rs i ⟨f.uri, f.references.eraseIdx j⟩
      else none
  | .file rs i => (eraseFileAt root rs i).bind (fun root' => pruneUp root' rs)
  | .folder (k :: rs) => (eraseFolderAt root rs k).bind (fun root' => pruneUp root' rs)
  | _ => none

/-- Resolution through a rebuild: the chain resolves before and after, and the
folder at the modified chain is exactly the updated one. -/
theorem modifyFolderAt_resolve (rs : List Nat) :
    ∀ (root root' : FolderT) (g : FolderT → Option FolderT),
      modifyFolderAt root rs g = some root' →
      ∃ f f', getFolderRev root rs = some f ∧ g f = some f'
        ∧ getFolderRev root' rs = some f' := by
  induction rs with
  | nil =>
    intro root root' g h
    exact ⟨root, root', rfl, h, rfl⟩
  | cons k rest ih =>
    intro root root' g h
    rw [modifyFolderAt] at h
    obtain ⟨p, p', hp, hG, hp'⟩ := ih root root' _ h
    split at hG
    · cases hG
    · next c hc =>
      cases hgc : g c with
      | none => rw [hgc] at hG; cases hG
      | some c' =>
        rw [hgc] at hG
        simp only [Option.map_some'] at hG
        injection hG with hG
        refine ⟨c, c', ?_, hgc, ?_⟩
        · rw [getFolderRev, hp, Option.some_bind]
          exact hc
        · rw [getFolderRev, hp', Option.some_bind, ← hG]
          rw [FolderT.withFolders_folders]
          exact List.get?_set_eq_of_lt _ (List.get?_eq_some.mp hc).1

theorem getFolderRev_append (d e : List Nat) :
    ∀ root : FolderT, getFolderRev root (d ++ e) =
      (getFolderRev root e).bind (fun f => getFolderRev f d) := by
  induction d with
  | nil =>
    intro root
    rw [List.nil_append]
    cases getFolderRev root e <;> rfl
  | cons x d' ih =>
    intro root
    rw [List.cons_append, getFolderRev, ih root]
    cases getFolderRev root e with
    | none => rfl
    | some f =>
      rw [Option.some_bind, Option.some_bind, getFolderRev]

/-- A rebuild at one chain touches no node on a diverging chain: if neither
chain is a suffix of the other (the modified node is neither an ancestor nor a
descendant of the observed node), the observed subtree is unchanged — its
children included. -/
theorem modifyFolderAt_off_chain (rs : List Nat) :
    ∀ (root root' : FolderT) (g : FolderT → Option FolderT),
      modifyFolderAt root rs g = some root' →
      ∀ rs₂ : List Nat, ¬ rs <:+ rs₂ → ¬ rs₂ <:+ rs →
        getFolderRev root' rs₂ = getFolderRev root rs₂ := by
  induction rs with
  | nil =>
    intro root root' g h rs₂ h1 h2
    exact absurd List.nil_suffix h1
  | cons k rest ih =>
    intro root root' g h rs₂ h1 h2
    rw [modifyFolderAt] at h
    by_cases hsuf : rest <:+ rs₂
    · obtain ⟨c, hc⟩ := hsuf
      rcases List.eq_nil_or_concat c with rfl | ⟨d, m, rfl⟩
      · rw [List.nil_append] at hc
        subst hc
        exact absurd (List.suffix_cons k rest) h2
      · have hrs2 : rs₂ = d ++ (m :: rest) := by
          rw [← hc]
          simp
        have hm : m ≠ k := by
          intro hmk
          subst hmk
          exact absurd ⟨d, hrs2.symm⟩ h1
        obtain ⟨p, p', hp, hG, hp'⟩ := modifyFolderAt_resolve rest root root' _ h
        have hG' : ∃ c c', p.folders.get? k = some c ∧ g c = some c'
            ∧ p' = p.withFolders (p.folders.set k c') := by
          split at hG
          · cases hG
          · next c0 hc0 =>
            cases hgc : g c0 with
            | none => rw [hgc] at hG; cases hG
            | some c0' =>
              rw [hgc] at hG
              simp only [Option.map_some'] at hG
              injection hG with hG
              exact ⟨c0, c0', hc0, hgc, hG.symm⟩
        obtain ⟨c0, c0', hc0, _, hpp'⟩ := hG'
        rw [hrs2, getFolderRev_append, getFolderRev_append]
        have hstep : getFolderRev root' (m :: rest) = getFolderRev root (m :: rest) := by
          rw [getFolderRev, getFolderRev, hp, hp', Option.some_bind, Option.some_bind]
          rw [hpp', FolderT.withFolders_folders]
          exact List.get?_set_ne _ _ (Ne.symm hm)
        rw [hstep]
    · refine ih root root' _ h rs₂ hsuf ?_
      intro hcon
      exact h2 (hcon.trans (List.suffix_cons k rest))

/-- `Promise`-less rendering of a call that can throw: its value when it
succeeds, `none` when it throws. -/
def exceptToOption {e a : Type} : Except e a → Option a
  | .ok v => some v
  | .error _ => none

/-- `ReferencesModel.remove` on a `ReferenceItem` (src/models.ts lines
234-241): `del(item.parent.results, item)` splices the reference out of its
file's `results`; if that array is then empty, `del(items, item.parent)`
splices the file itself out of the top-level `items`.  `del` locates elements
by identity, so an attached reference is addressed by its pair of indexes. -/
def referencesRemoveRef (items : List FileItemE) (i j : Nat) : List FileItemE :=
  match items.get? i with
  | none => items
  | some f =>
    if (f.results.eraseIdx j).isEmpty then items.eraseIdx i
    else items.set i ⟨f.uri, f.results.eraseIdx j⟩

theorem goodDeep_setFileAt (root r : FolderT) (rs : List Nat) (i : Nat) (f' : FileT)
    (h : setFileAt root rs i f' = some r) (hd : goodDeep root = true) :
    goodDeep r = true := by
  rw [setFileAt] at h
  refine goodDeep_modifyFolderAt rs root r _ ?_ h hd
  intro p p' hpp
  split at hpp
  · injection hpp with hpp
    subst hpp
    refine ⟨goodFolder_withFiles p _ (isEmpty_set ..), ?_⟩
    intro hh
    rw [goodDeep_withFiles]
    exact hh
  · cases hpp

/-- The code's cleanup cascade is the spec's upward prune followed by one
whole-tree compaction. -/
theorem cleanupFolderAt_eq_pruneUp (rs : List Nat) :
    ∀ root : FolderT, cleanupFolderAt root rs
      = (pruneUp root rs).map (fun r => (compactTree r true).1) := by
  induction rs with
  | nil =>
    intro root
    rfl
  | cons k rest ih =>
    intro root
    rw [cleanupFolderAt, pruneUp]
    cases hg : getFolderRev root (k :: rest) with
    | none => rfl
    | some f =>
      simp only
      by_cases hemp : f.isEmptyFolder = true
      · rw [if_pos hemp, if_pos hemp]
        cases he : eraseFolderAt root rest k with
        | none => rfl
        | some root' =>
          simp only [Option.some_bind]
          exact ih root'
      · rw [if_neg hemp, if_neg hemp]
        rfl

/-- The locations for the off-chain compaction counterexample: one file at the
bottom of the compactible chain `a → b`, plus a folder `m` that holds a file
of its own and the stale compactible chain `x → y`. -/
def offchainLocs : List Location :=
  [⟨⟨"file:///ws/a/b/c/f.ts", "/ws/a/b/c/f.ts", ""⟩, ⟨⟨1, 0⟩, ⟨1, 1⟩⟩⟩,
   ⟨⟨"file:///ws/m/d/h.ts", "/ws/m/d/h.ts", ""⟩, ⟨⟨2, 0⟩, ⟨2, 1⟩⟩⟩,
   ⟨⟨"file:///ws/m/x/y/w/g.ts", "/ws/m/x/y/w/g.ts", ""⟩, ⟨⟨3, 0⟩, ⟨3, 1⟩⟩⟩]

/-- The tree the placement loop builds for `offchainLocs` before compaction. -/
def offchainPreRoot : FolderT :=
  .mk ""
    []
    [.mk "a" []
      [.mk "b" [⟨⟨"file:///ws/a/b/c/f.ts", "/ws/a/b/c/f.ts", ""⟩,
        [⟨⟨"file:///ws/a/b/c/f.ts", "/ws/a/b/c/f.ts", ""⟩, ⟨⟨1, 0⟩, ⟨1, 1⟩⟩⟩]⟩] []],
     .mk "m" [⟨⟨"file:///ws/m/d/h.ts", "/ws/m/d/h.ts", ""⟩,
        [⟨⟨"file:///ws/m/d/h.ts", "/ws/m/d/h.ts", ""⟩, ⟨⟨2, 0⟩, ⟨2, 1⟩⟩⟩]⟩]
      [.mk "x" []
        [.mk "y" [⟨⟨"file:///ws/m/x/y/w/g.ts", "/ws/m/x/y/w/g.ts", ""⟩,
          [⟨⟨"file:///ws/m/x/y/w/g.ts", "/ws/m/x/y/w/g.ts", ""⟩, ⟨⟨3, 0⟩, ⟨3, 1⟩⟩⟩]⟩] []]]]

/-- The constructed session for `offchainLocs`: the chain `a/b` is merged,
then compaction short-circuits, leaving the stale chain `x → y` inside `m`. -/
def offchainTree : FolderT :=
  .mk ""
    []
    [.mk "a/b" [⟨⟨"file:///ws/a/b/c/f.ts", "/ws/a/b/c/f.ts", ""⟩,
        [⟨⟨"file:///ws/a/b/c/f.ts", "/ws/a/b/c/f.ts", ""⟩, ⟨⟨1, 0⟩, ⟨1, 1⟩⟩⟩]⟩] [],
     .mk "m" [⟨⟨"file:///ws/m/d/h.ts", "/ws/m/d/h.ts", ""⟩,
        [⟨⟨"file:///ws/m/d/h.ts", "/ws/m/d/h.ts", ""⟩, ⟨⟨2, 0⟩, ⟨2, 1⟩⟩⟩]⟩]
      [.mk "x" []
        [.mk "y" [⟨⟨"file:///ws/m/x/y/w/g.ts", "/ws/m/x/y/w/g.ts", ""⟩,
          [⟨⟨"file:///ws/m/x/y/w/g.ts", "/ws/m/x/y/w/g.ts", ""⟩, ⟨⟨3, 0⟩, ⟨3, 1⟩⟩⟩]⟩] []]]]

/-- The tree after removing the sole reference of `a/b`: the cascade deletes
the file and the folder `a/b`, and the compaction pass then merges the stale
chain `x → y` into `x/y` — inside `m`, which is not an ancestor of the
removed reference. -/
def offchainAfter : FolderT :=
  .mk ""
    []
    [.mk "m" [⟨⟨"file:///ws/m/d/h.ts", "/ws/m/d/h.ts", ""⟩,
        [⟨⟨"file:///ws/m/d/h.ts", "/ws/m/d/h.ts", ""⟩, ⟨⟨2, 0⟩, ⟨2, 1⟩⟩⟩]⟩]
      [.mk "x/y" [⟨⟨"file:///ws/m/x/y/w/g.ts", "/ws/m/x/y/w/g.ts", ""⟩,
        [⟨⟨"file:///ws/m/x/y/w/g.ts", "/ws/m/x/y/w/g.ts", ""⟩, ⟨⟨3, 0⟩, ⟨3, 1⟩⟩⟩]⟩] []]]

/-- C6, counterexample to the claim as stated: on the reachable session built
from `offchainLocs` (left non-compacted by the constructor's short-circuited
compaction), removing the sole reference of file `f.ts` — whose ancestor
chain is `a/b` and the root — changes the children of the sibling folder `m`
from `[x]` to `[x/y]`: `remove` runs `compactTree(this.root)`, which merges
the stale chain `x → y` although `m` is outside the affected ancestor
chain. -/
theorem remove_offchain_compaction_counterexample :
    (getFolderRev (createModel offchainLocs wsRoots true) [1]).map
        (fun m => (m.name, m.folders.map FolderT.name)) = some ("m", ["x"])
    ∧ (match modelRemove (createModel offchainLocs wsRoots true) (.ref [0] 0 0) with
       | .ok r => (getFolderRev r [0]).map (fun m => (m.name, m.folders.map FolderT.name))
       | .error _ => none) = some ("m", ["x/y"]) := by
  have hpre : createModel offchainLocs wsRoots true = (compactTree offchainPreRoot true).1 :=
    congrArg (fun r => (compactTree r true).1)
      (by decide :
        (modelFlatFiles offchainLocs).foldl (fun acc run =>
          match getContainerComponents wsRoots run.uri with
          | none => acc
          | some parts => getOrCreateAdd acc parts ⟨run.uri, run.results⟩)
          (FolderT.mk "" [] []) = offchainPreRoot)
  have hc : (compactTree offchainPreRoot true).1 = offchainTree := by
    simp [offchainPreRoot, offchainTree, compactTree, compactTreeL, compactStep,
      compactChain, chainShape, FolderT.withFolders, FolderT.withFiles, FolderT.withName]
  rw [hpre, hc]
  refine ⟨by decide, ?_⟩
  have hr : modelRemove offchainTree (.ref [0] 0 0) = .ok offchainAfter := by
    simp [offchainTree, offchainAfter, modelRemove, getFileAt, deleteFileAt, eraseFileAt,
      modifyFolderAt, cleanupFolderAt, eraseFolderAt, getFolderRev, FolderT.isEmptyFolder,
      FolderT.withFolders, FolderT.withFiles, FolderT.withName,
      compactTree, compactTreeL, compactStep, compactChain, chainShape]
  rw [hr]
  decide

/-- C6 (amended): removal detaches and prunes upward, stopping at the first
non-empty ancestor or the root.  (1) On every tree satisfying the compaction
invariant, `ModelImpl.remove` computes exactly the spec's contract — detach
the node, then walking upward delete every ancestor that has become empty and
is not the root, stopping at the first non-empty ancestor or the root —
followed by one `compactTree` pass; a throwing call yields no tree.  (2) A
rebuild at one chain leaves every node on a diverging chain — neither an
ancestor nor a descendant of the modified node — unchanged, children
included.  (3) The flat `ReferencesModel.remove` on a reference deletes
exactly that reference, removing the owning file only when it becomes empty,
and in the surviving case every other file is untouched.  The `goodDeep`
hypothesis of (1) is necessary: the constructor's short-circuited compaction
can leave stale compactible chains, and on such reachable trees the
`compactTree` pass run by a deleting `remove` merges a stale chain outside
the affected ancestor chain (see the counterexample above). -/
theorem remove_detaches_and_prunes :
    (∀ (root : FolderT) (t : NodeTarget), goodDeep root = true →
        exceptToOption (modelRemove root t)
          = (specRemove root t).map (fun r => (compactTree r true).1))
    ∧ (∀ (rs : List Nat) (root root' : FolderT) (g : FolderT → Option FolderT),
        modifyFolderAt root rs g = some root' →
        ∀ rs₂ : List Nat, ¬ rs <:+ rs₂ → ¬ rs₂ <:+ rs →
          getFolderRev root' rs₂ = getFolderRev root rs₂)
    ∧ (∀ (items : List FileItemE) (i j : Nat) (f : FileItemE),
        items.get? i = some f → j < f.results.length →
          (f.results.length = 1 → referencesRemoveRef items i j = items.eraseIdx i)
          ∧ (1 < f.results.length →
              referencesRemoveRef items i j
                = items.set i ⟨f.uri, f.results.eraseIdx j⟩
              ∧ ∀ m, m ≠ i →
                  (referencesRemoveRef items i j).get? m = items.get? m)) := by
  refine ⟨?_, modifyFolderAt_off_chain, ?_⟩
  · intro root t hd
    cases t with
    | detachedRef => rfl
    | detachedFile => rfl
    | detachedFolder => rfl
    | folder rs =>
      cases rs with
      | nil => rfl
      | cons k rest =>
        rw [modelRemove, specRemove, deleteFolderAt]
        cases he : eraseFolderAt root rest k with
        | none => rfl
        | some root' =>
          simp only [Option.some_bind]
          rw [cleanupFolderAt_eq_pruneUp]
          cases hp : pruneUp root' rest with
          | none => rfl
          | some r => rfl
    | file rs i =>
      rw [modelRemove, specRemove, deleteFileAt]
      cases he : eraseFileAt root rs i with
      | none => rfl
      | some root' =>
        simp only [Option.some_bind]
        rw [cleanupFolderAt_eq_pruneUp]
        cases hp : pruneUp root' rs with
        | none => rfl
        | some r => rfl
    | ref rs i j =>
      rw [modelRemove, specRemove]
      cases hf : getFileAt root rs i with
      | none => rfl
      | some f =>
        simp only
        by_cases hj : j < f.references.length
        · rw [if_pos hj, if_pos hj]
          by_cases hemp : (f.references.eraseIdx j).isEmpty = true
          · rw [if_pos hemp, if_pos hemp, deleteFileAt]
            cases he : eraseFileAt root rs i with
            | none => rfl
            | some root' =>
              simp only [Option.some_bind]
              rw [cleanupFolderAt_eq_pruneUp]
              cases hp : pruneUp root' rs with
              | none => rfl
              | some r => rfl
          · rw [if_neg hemp, if_neg hemp]
            cases hset : setFileAt root rs i ⟨f.uri, f.references.eraseIdx j⟩ with
            | none => rfl
            | some r =>
              show some r = some ((compactTree r true).1)
              rw [compactTree_eq_of_goodDeep r true (Or.inl rfl)
                (goodDeep_setFileAt root r rs i _ hset hd)]
        · rw [if_neg hj, if_neg hj]
          rfl
  · intro items i j f hf hj
    have hlen : (f.results.eraseIdx j).length = f.results.length - 1 := by
      rw [List.length_eraseIdx]
      simp [hj]
    constructor
    · intro h1
      have hemp : (f.results.eraseIdx j).isEmpty = true := by
        rw [List.isEmpty_iff_length_eq_zero, hlen, h1]
      simp only [referencesRemoveRef, hf]
      rw [if_pos hemp]
    · intro h1
      have hne : ¬ (f.results.eraseIdx j).isEmpty = true := by
        rw [List.isEmpty_iff_length_eq_zero, hlen]
        omega
      refine ⟨?_, ?_⟩
      · simp only [referencesRemoveRef, hf]
        rw [if_neg hne]
      · intro m hm
        simp only [referencesRemoveRef, hf]
        rw [if_neg hne]
        exact List.get?_set_ne _ _ (Ne.symm hm)

/-- A two-branch grouped tree: folder `a` holding one file with one reference,
folder `b` likewise. -/
def pruneTree : FolderT :=
  .mk ""
    []
    [.mk "a" [⟨⟨"file:///a/x.ts", "/a/x.ts", ""⟩,
        [⟨⟨"file:///a/x.ts", "/a/x.ts", ""⟩, ⟨⟨1, 0⟩, ⟨1, 1⟩⟩⟩]⟩] [],
     .mk "b" [⟨⟨"file:///b/y.ts", "/b/y.ts", ""⟩,
        [⟨⟨"file:///b/y.ts", "/b/y.ts", ""⟩, ⟨⟨2, 0⟩, ⟨2, 1⟩⟩⟩]⟩] []]

/-- Witness for `remove_detaches_and_prunes`: removing the sole file of folder
`a` in `pruneTree` cascades — `a`, now empty, is deleted from the root, the
walk stops at the root, and the sibling branch `b` is untouched. -/
theorem remove_detaches_and_prunes_witness :
    goodDeep pruneTree = true
    ∧ exceptToOption (modelRemove pruneTree (.file [0] 0))
        = (specRemove pruneTree (.file [0] 0)).map (fun r => (compactTree r true).1)
    ∧ modelRemove pruneTree (.file [0] 0)
        = .ok (.mk "" [] [.mk "b" [⟨⟨"file:///b/y.ts", "/b/y.ts", ""⟩,
            [⟨⟨"file:///b/y.ts", "/b/y.ts", ""⟩, ⟨⟨2, 0⟩, ⟨2, 1⟩⟩⟩]⟩] []]) := by
  refine ⟨by decide, remove_detaches_and_prunes.1 pruneTree (.file [0] 0) (by decide), ?_⟩
  simp [pruneTree, modelRemove, deleteFileAt, eraseFileAt, modifyFolderAt,
    cleanupFolderAt, eraseFolderAt, getFolderRev, FolderT.isEmptyFolder,
    FolderT.withFolders, FolderT.withFiles,
    compactTree, compactTreeL, compactStep, compactChain, chainShape]

end RefsView
